import Mathlib

/-!
Verification of the POSCAR point-defect substitution tool (`make_defect.py`).

The program is shallowly embedded as follows.

* Python strings are `List Char` (`Str`).  `str.split()`, `str.strip()`,
  `str.lower()` are modelled by `pySplit`, `pyStrip`, `pyLower`.
* Python floats are modelled by exact decimal numbers `Dec`
  (an integer mantissa times a power of ten, kept in a normal form with no
  trailing zeros in the mantissa).  Every numeric value the program ever
  builds is such a decimal: `float(token)` parses a decimal literal,
  positions are only subtracted, squared and summed for comparisons, and the
  output renders 16 digits after the decimal point.  Binary floating-point
  rounding is abstracted away; arithmetic is exact.
* `float(s)` and `int(s)` are `pyFloat?` / `pyInt?`, returning `none` where
  Python raises `ValueError`.
* Fallible code returns `Except Err A`.  Python raises only unnamed
  `IndexError` / `ValueError` / `KeyError`; following the specification's
  taxonomy, the parse-time faults are `FormatError`, the explicit site check
  is `UnknownSiteError`, and `min` on an empty sequence is `EmptySiteError`.
  The remaining (length-mismatch) faults keep their Python names.
* File reading and writing, `print` diagnostics and the CLI are external
  collaborators and are not modelled; `parse_poscar` takes the list of lines
  of the file (each line still carrying its trailing newline, as produced by
  `readlines`), and `substitute` returns the list of output lines plus the
  derived file name, exactly as the Python functions do.
-/

/-! ### Python string primitives -/

abbrev Str := List Char

def isWs (c : Char) : Bool := c.isWhitespace

/-- Python `str.split()` (no separator argument): split on runs of
whitespace, never producing empty tokens.  `acc` holds the (reversed)
current token. -/
def pySplitAux : Str → Str → List Str
  | [], acc => if acc = [] then [] else [acc.reverse]
  | c :: rest, acc =>
    if isWs c then
      if acc = [] then pySplitAux rest [] else acc.reverse :: pySplitAux rest []
    else pySplitAux rest (c :: acc)

def pySplit (s : Str) : List Str := pySplitAux s []

/-- Python `str.strip()`: remove leading and trailing whitespace. -/
def pyStrip (s : Str) : Str := ((s.dropWhile isWs).reverse.dropWhile isWs).reverse

/-- Python `str.lower()` (the file only ever lowercases ASCII markers). -/
def pyLower (s : Str) : Str := s.map Char.toLower

/-! ### Decimal rendering and parsing of numbers -/

/-- Decimal digits of `n`, least significant first.  The first argument is
structural fuel (any fuel `≥ n` is enough); fuel keeps the recursion
kernel-reducible. -/
def natDigitsRevAux : Nat → Nat → List Char
  | 0, n => [Nat.digitChar n]
  | f+1, n => if n < 10 then [Nat.digitChar n] else Nat.digitChar (n % 10) :: natDigitsRevAux f (n / 10)

/-- Decimal rendering of a natural number, as Python `str` produces it. -/
def natToStr (n : Nat) : Str := (natDigitsRevAux n n).reverse

/-- Decimal rendering of an integer, Python `str(n)`. -/
def intToStr (i : Int) : Str := if i < 0 then '-' :: natToStr i.natAbs else natToStr i.toNat

/-- Value of a string of decimal digits. -/
def digitsToNat (s : Str) : Nat := s.foldl (fun a c => a * 10 + (c.toNat - 48)) 0

/-- Python `int(s)` on a whitespace-free token: optional sign then digits.
`none` models `ValueError`. -/
def pyInt? (s : Str) : Option Int :=
  match s with
  | [] => none
  | c :: d =>
    if c = '+' then (if d ≠ [] ∧ d.all Char.isDigit then some (digitsToNat d) else none)
    else if c = '-' then (if d ≠ [] ∧ d.all Char.isDigit then some (-(digitsToNat d : Int)) else none)
    else if (c :: d).all Char.isDigit then some (digitsToNat (c :: d)) else none

/-! ### Exact decimals -/

/-- An exact decimal number: value `m * 10 ^ e`. -/
structure Dec where
  m : Int
  e : Int
deriving DecidableEq, Repr

/-- Strip factors of ten out of the mantissa into the exponent; the first
argument is structural fuel (`|m|` always suffices). -/
def stripZeros : Nat → Int → Int → Dec
  | 0, m, e => ⟨m, e⟩
  | f+1, m, e =>
    if m = 0 then ⟨0, 0⟩
    else if m % 10 = 0 then stripZeros f (m / 10) (e + 1) else ⟨m, e⟩

/-- Normal form of the decimal `m * 10 ^ e`. -/
def Dec.norm (m e : Int) : Dec := stripZeros m.natAbs m e

def Dec.zero : Dec := ⟨0, 0⟩

def Dec.add (a b : Dec) : Dec :=
  if a.e ≤ b.e then Dec.norm (a.m + b.m * 10 ^ (b.e - a.e).toNat) a.e
  else Dec.norm (b.m + a.m * 10 ^ (a.e - b.e).toNat) b.e

def Dec.neg (a : Dec) : Dec := ⟨-a.m, a.e⟩

def Dec.sub (a b : Dec) : Dec := a.add b.neg

def Dec.mul (a b : Dec) : Dec := Dec.norm (a.m * b.m) (a.e + b.e)

/-- Comparison `a < b` of the represented values (what Python's `<` on the
two float keys decides). -/
def Dec.ltb (a b : Dec) : Bool :=
  if a.e ≤ b.e then a.m < b.m * 10 ^ (b.e - a.e).toNat
  else a.m * 10 ^ (a.e - b.e).toNat < b.m

/-- The rational value represented by a `Dec` (proof-side semantics). -/
def Dec.toRat (d : Dec) : ℚ := (d.m : ℚ) * (10:ℚ) ^ d.e

/-- Python `float(s)` on a whitespace-free token, restricted to the decimal
literals the program can meet: optional sign, digits with an optional single
dot, optional exponent part.  `none` models `ValueError`. -/
def parseMant (s : Str) : Option (Nat × Nat) :=
  let ip := s.takeWhile Char.isDigit
  let rest := s.dropWhile Char.isDigit
  match rest with
  | [] => if ip = [] then none else some (digitsToNat ip, 0)
  | c :: fr =>
    if c = '.' ∧ (ip ≠ [] ∨ fr ≠ []) ∧ fr.all Char.isDigit then
      some (digitsToNat ip * 10 ^ fr.length + digitsToNat fr, fr.length)
    else none

/-- The unsigned part of `float(s)`: mantissa, then an optional exponent
part introduced by `e` or `E`. -/
def pyFloatU? (s1 : Str) : Option Dec :=
  let mant := s1.takeWhile (fun c => !(c = 'e' || c = 'E'))
  let rest := s1.dropWhile (fun c => !(c = 'e' || c = 'E'))
  match parseMant mant with
  | none => none
  | some nf =>
    match rest with
    | [] => some (Dec.norm nf.1 (-(nf.2 : Int)))
    | _ :: es =>
      match pyInt? es with
      | none => none
      | some ex => some (Dec.norm nf.1 (ex - nf.2))

def pyFloat? (s : Str) : Option Dec :=
  match s with
  | [] => none
  | c :: r =>
    if c = '-' then (pyFloatU? r).map Dec.neg
    else if c = '+' then pyFloatU? r
    else pyFloatU? (c :: r)

/-- The integer nearest to `d * 10 ^ 16`, ties to even: the value printed by
Python's fixed-point format with 16 digits after the decimal point. -/
def rnd16 (d : Dec) : Int :=
  let k := d.e + 16
  if 0 ≤ k then d.m * 10 ^ k.toNat
  else
    let D := (10:Int) ^ (-k).toNat
    let fl := d.m.fdiv D
    let r := d.m - fl * D
    if 2 * r < D then fl else if D < 2 * r then fl + 1 else if fl % 2 = 0 then fl else fl + 1

/-- The decimal value that the 16-digit rendering of `d` denotes. -/
def round16 (d : Dec) : Dec := Dec.norm (rnd16 d) (-16)

/-- Zero-pad a digit string on the left to 16 digits. -/
def padZeros16 (s : Str) : Str := List.replicate (16 - s.length) '0' ++ s

/-- Python fixed-point formatting with 16 digits after the decimal point. -/
def fmt16 (d : Dec) : Str :=
  let n := rnd16 d
  let a := n.natAbs
  (if d.m < 0 then ['-'] else []) ++ natToStr (a / 10 ^ 16) ++ '.' :: padZeros16 (natToStr (a % 10 ^ 16))

/-! ### Geometry: `distance` and `find_closest_position` (lines 4-8) -/

abbrev Coord := List Dec

/-- Error taxonomy (specification section 7, plus the two generic Python
faults that remain possible on malformed structures). -/
inductive Err where
  | FormatError
  | UnknownSiteError
  | EmptySiteError
  | KeyError
  | IndexError
deriving DecidableEq, Repr

/-- Source line 4-5: `distance(p1, p2) = sqrt(sum((a-b)**2 for a, b in zip(p1, p2)))`.
Only comparisons of distances are ever used, and `sqrt` is strictly monotone
on nonnegatives, so the embedding computes the squared distance (the sum
under the square root) exactly; the theorems about the selector state
minimality of the square root of this value over the reals. -/
def distanceSq (p1 p2 : Coord) : Dec :=
  ((p1.zip p2).map (fun ab => (ab.1.sub ab.2).mul (ab.1.sub ab.2))).foldl Dec.add Dec.zero

/-- Source lines 7-8: `min(positions, key=lambda pos: distance(pos, target))`.
Python's `min` keeps the first item and replaces it only when a later key is
strictly smaller, hence the leftmost minimum.  `min` of an empty sequence
raises (spec: `EmptySiteError`). -/
def find_closest_position (positions : List Coord) (target : Coord) : Except Err Coord :=
  match positions with
  | [] => .error .EmptySiteError
  | p :: rest =>
    .ok (rest.foldl (fun best q => if (distanceSq q target).ltb (distanceSq best target) then q else best) p)

/-! ### The parser (`parse_poscar`, lines 10-47) -/

/-- Insertion-ordered string-keyed map, Python `dict`. -/
abbrev Dict := List (Str × List Coord)

def dictGet? (d : Dict) (k : Str) : Option (List Coord) :=
  match d with
  | [] => none
  | (k', v) :: rest => if k' = k then some v else dictGet? rest k

/-- Python `d[k] = v`: replace in place if the key exists, else append. -/
def dictSet (d : Dict) (k : Str) (v : List Coord) : Dict :=
  match d with
  | [] => [(k, v)]
  | (k', v') :: rest => if k' = k then (k', v) :: rest else (k', v') :: dictSet rest k v

structure ParsedData where
  lines : List Str
  atom_types : List Str
  atom_counts : List Int
  coord_type : Str
  element_positions : Dict
deriving DecidableEq, Repr

def orFormat : Option α → Except Err α
  | some a => .ok a
  | none => .error .FormatError

/-- A line whose stripped, lowercased content is `direct` or `cartesian`
(the loop condition of lines 27-28). -/
def isCoordMarker (l : Str) : Bool :=
  pyLower (pyStrip l) = "direct".data ∨ pyLower (pyStrip l) = "cartesian".data

/-- The scanning loop of lines 26-28: `i` is the index of the first element
of the remaining line list. -/
def findMarkerFrom : List Str → Nat → Option Nat
  | [], _ => none
  | l :: rest, i => if isCoordMarker l then some i else findMarkerFrom rest (i + 1)

/-- Lines 26-28: starting from index 7, the index of the first coordinate
marker line; `none` when the scan runs off the end of the list
(Python: `IndexError`). -/
def firstMarkerIdx (lines : List Str) : Option Nat :=
  findMarkerFrom (lines.drop 7) 7

def mapOpt (f : α → Option β) : List α → Option (List β)
  | [] => some []
  | a :: l =>
    match f a with
    | none => none
    | some b =>
      match mapOpt f l with
      | none => none
      | some bs => some (b :: bs)

/-- Line 33, per coordinate line: `list(map(float, line.split()[:3]))`. -/
def parseCoordLine (l : Str) : Option Coord :=
  mapOpt pyFloat? ((pySplit l).take 3)

/-- Line 33, the comprehension over `range(total_atoms)`: read `total`
coordinate lines starting at `start`; a missing line is `IndexError`, a bad
token `ValueError` — both `FormatError` in the spec's taxonomy. -/
def readPositions (lines : List Str) (start : Nat) : Nat → Except Err (List Coord)
  | 0 => .ok []
  | n+1 =>
    match lines.get? start with
    | none => .error .FormatError
    | some l =>
      match parseCoordLine l with
      | none => .error .FormatError
      | some p =>
        match readPositions lines (start + 1) n with
        | .ok ps => .ok (p :: ps)
        | .error e => .error e

/-- Python slice `l[i:j]` (negative indices count from the end, bounds are
clamped). -/
def pyIdx (n : Nat) (i : Int) : Nat := (if i < 0 then i + n else i).toNat.min n

def pySlice (l : List α) (i j : Int) : List α :=
  (l.take (pyIdx l.length j)).drop (pyIdx l.length i)

/-- Lines 35-39: walk `zip(atom_types, atom_counts)` slicing the flat
position list; `element_positions[atom] = atomic_positions[idx:idx+count]`. -/
def buildDict : List (Str × Int) → List Coord → Int → Dict → Dict
  | [], _, _, d => d
  | (a, c) :: rest, poss, idx, d =>
    buildDict rest poss (idx + c) (dictSet d a (pySlice poss idx (idx + c)))

/-- Lines 10-47 (`parse_poscar`), minus file I/O and logging. -/
def parse_poscar (lines : List Str) : Except Err ParsedData :=
  match lines.get? 5 with
  | none => .error .FormatError
  | some l5 =>
    let atom_types := pySplit l5
    match lines.get? 6 with
    | none => .error .FormatError
    | some l6 =>
      match mapOpt pyInt? (pySplit l6) with
      | none => .error .FormatError
      | some atom_counts =>
        let total_atoms := atom_counts.sum
        match firstMarkerIdx lines with
        | none => .error .FormatError
        | some ci =>
          let coord_type := pyStrip (lines.getD ci [])
          match readPositions lines (ci + 1) total_atoms.toNat with
          | .error e => .error e
          | .ok atomic_positions =>
            .ok ⟨lines, atom_types, atom_counts, coord_type,
                 buildDict (atom_types.zip atom_counts) atomic_positions 0 []⟩

/-! ### The substitution engine (`substitute`, lines 49-92) -/

/-- The mutated structure just before serialization. -/
structure SubResult where
  atom_types : List Str
  atom_counts : List Int
  positions : Dict
  substituted_position : Coord
deriving DecidableEq, Repr

/-- Line 62: the implicit default target. -/
def defaultTarget : Coord := [⟨5, -1⟩, ⟨5, -1⟩, ⟨5, -1⟩]

/-- Lines 49-92 of `substitute`: the pure mutation, before serialization. -/
def substituteCore (pd : ParsedData) (substitution site : Str) (target? : Option Coord) :
    Except Err SubResult :=
  let atom_types := pd.atom_types
  let atom_counts := pd.atom_counts
  let positions := pd.element_positions
  if site ∈ atom_types then
    match dictGet? positions site with
    | none => .error .KeyError
    | some atom_positions =>
      let target := target?.getD defaultTarget
      match find_closest_position atom_positions target with
      | .error e => .error e
      | .ok substituted_position =>
        let positions := dictSet positions site (atom_positions.erase substituted_position)
        let site_index := atom_types.findIdx (· == site)
        match atom_counts.get? site_index with
        | none => .error .IndexError
        | some c0 =>
          let atom_counts := atom_counts.set site_index (c0 - 1)
          let step : Except Err (List Str × List Int × Dict) :=
            if substitution ∈ atom_types then
              let sub_index := atom_types.findIdx (· == substitution)
              match atom_counts.get? sub_index with
              | none => .error .IndexError
              | some c1 => .ok (atom_types, atom_counts.set sub_index (c1 + 1), positions)
            else if substitution = "Va".data then .ok (atom_types, atom_counts, positions)
            else .ok (atom_types ++ [substitution], atom_counts ++ [1], dictSet positions substitution [])
          match step with
          | .error e => .error e
          | .ok (atom_types', atom_counts', positions') =>
            if substitution ≠ "Va".data then
              match dictGet? positions' substitution with
              | none => .error .KeyError
              | some lsub =>
                .ok ⟨atom_types', atom_counts',
                     dictSet positions' substitution (lsub ++ [substituted_position]),
                     substituted_position⟩
            else .ok ⟨atom_types', atom_counts', positions', substituted_position⟩
  else .error .UnknownSiteError

/-- Line 103: one coordinate output line; `pos[0]` on a short position is an
`IndexError`. -/
def fmtPosLine (p : Coord) : Except Err Str :=
  match p.get? 0, p.get? 1, p.get? 2 with
  | some a, some b, some c =>
    .ok ("  ".data ++ fmt16 a ++ "  ".data ++ fmt16 b ++ "  ".data ++ fmt16 c ++ ['\n'])
  | _, _, _ => .error .IndexError

/-- Python `"sep".join(tokens)`. -/
def joinSep (sep : Str) : List Str → Str
  | [] => []
  | [t] => t
  | t :: ts => t ++ sep ++ joinSep sep ts

def mapExcept (f : α → Except Err β) : List α → Except Err (List β)
  | [] => .ok []
  | a :: l =>
    match f a with
    | .error e => .error e
    | .ok b =>
      match mapExcept f l with
      | .error e => .error e
      | .ok bs => .ok (b :: bs)

/-- Python `new_lines[0] = descriptor` (the list always has at least the
three species/counts/marker lines, so index 0 exists). -/
def setHead (l : List Str) (s : Str) : List Str :=
  match l with
  | [] => []
  | _ :: t => s :: t

/-- Lines 94-96: flatten the position lists back into one block, iterating
`atom_types` in order; `positions.get(atom, [])`. -/
def flatten_positions (types : List Str) (d : Dict) : List Coord :=
  types.foldl (fun acc a => acc ++ (dictGet? d a).getD []) []

/-- Lines 94-109 of `substitute`: serialization of the mutated structure and
the derived default output file name. -/
def serializeOut (pd : ParsedData) (r : SubResult) (substitution site : Str) :
    Except Err (List Str × Str) :=
  let all_positions := flatten_positions r.atom_types r.positions
  match mapExcept fmtPosLine all_positions with
  | .error e => .error e
  | .ok posLines =>
    let new_lines :=
      pySlice pd.lines 0 5
        ++ ["  ".data ++ joinSep "  ".data r.atom_types ++ ['\n'],
            "  ".data ++ joinSep "  ".data (r.atom_counts.map intToStr) ++ ['\n'],
            pd.coord_type ++ ['\n']]
        ++ posLines
    let descriptor :=
      substitution ++ '_' :: site ++ " defect ".data
        ++ joinSep [' '] (r.substituted_position.map fmt16) ++ ['\n']
    let filename := substitution ++ '_' :: site ++ "_POSCAR".data
    .ok (setHead new_lines descriptor, filename)

/-- Lines 49-109 (`substitute`): mutate, then serialize; returns the output
lines and the derived file name. -/
def substitute (pd : ParsedData) (substitution site : Str) (target? : Option Coord) :
    Except Err (List Str × Str) :=
  match substituteCore pd substitution site target? with
  | .error e => .error e
  | .ok r => serializeOut pd r substitution site

/-- The dictionary that the parser's partition loop produces: one entry per
`(symbol, count)` pair, slicing the flat position list at running offsets. -/
def sliceList : List (Str × Int) → List Coord → Int → Dict
  | [], _, _ => []
  | (a, c) :: rest, poss, idx => (a, pySlice poss idx (idx + c)) :: sliceList rest poss (idx + c)

/-- The output line for a (at least) 3-component position, as a total
function. -/
def fmtLine3 (p : Coord) : Str :=
  "  ".data ++ fmt16 (p.getD 0 Dec.zero) ++ "  ".data ++ fmt16 (p.getD 1 Dec.zero) ++
    "  ".data ++ fmt16 (p.getD 2 Dec.zero) ++ ['\n']

/-- The specification's invariants for a `StructureFile` (section 3):
distinct element symbols, every listed element has a position list, the
counts line is exactly the per-element position-list lengths, and every
stored coordinate has three components. -/
def StructureWF (pd : ParsedData) : Prop :=
  pd.atom_types.Nodup ∧
  (∀ t ∈ pd.atom_types, (dictGet? pd.element_positions t).isSome) ∧
  pd.atom_counts = pd.atom_types.map
    (fun t => (((dictGet? pd.element_positions t).getD []).length : Int)) ∧
  ∀ e ∈ pd.element_positions, ∀ p ∈ e.2, p.length = 3

instance {ε α : Type _} [DecidableEq ε] [DecidableEq α] : DecidableEq (Except ε α) := fun x y =>
  match x, y with
  | .ok a, .ok b =>
    if h : a = b then isTrue (by rw [h]) else isFalse (by intro hc; cases hc; exact h rfl)
  | .error e, .error f =>
    if h : e = f then isTrue (by rw [h]) else isFalse (by intro hc; cases hc; exact h rfl)
  | .ok _, .error _ => isFalse (fun hc => Except.noConfusion hc)
  | .error _, .ok _ => isFalse (fun hc => Except.noConfusion hc)

/-! ### Concrete structures used as test vectors -/


def forceOkPd (e : Except Err ParsedData) : ParsedData :=
  match e with
  | .ok pd => pd
  | .error _ => ⟨[], [], [], [], []⟩

def forceOkSub (e : Except Err SubResult) : SubResult :=
  match e with
  | .ok r => r
  | .error _ => ⟨[], [], [], []⟩

def forceOkOut (e : Except Err (List Str × Str)) : List Str × Str :=
  match e with
  | .ok o => o
  | .error _ => ([], [])

/-- A small well-formed POSCAR: species `Si O`, counts `1 2`. -/
def demoLines : List Str :=
  ["c", "1.0", "a", "b", "d", "Si O", "1 2", "Direct",
   "0.5 0.5 0.5", "0.1 0.2 0.3", "0.9 0.9 0.9"].map String.data

def demoPd : ParsedData := forceOkPd (parse_poscar demoLines)

/-- Vacancy at an `O` site of the demo structure. -/
def demoRVa : SubResult := forceOkSub (substituteCore demoPd "Va".data "O".data none)

/-- Substituting `K` (a new species) at the only `Si` site of the demo
structure. -/
def demoKR : SubResult := forceOkSub (substituteCore demoPd "K".data "Si".data none)

def demoKOut : List Str × Str := forceOkOut (substitute demoPd "K".data "Si".data none)

/-- A structure that itself lists `Va` as an element. -/
def vaLines : List Str :=
  ["c", "1.0", "a", "b", "d", "Si Va", "1 1", "Direct",
   "0.5 0.5 0.5", "0.1 0.1 0.1"].map String.data

def vaPd : ParsedData := forceOkPd (parse_poscar vaLines)

def vaR : SubResult := forceOkSub (substituteCore vaPd "Va".data "Si".data none)

/-- A structure with a duplicated element symbol. -/
def dupLines : List Str :=
  ["c", "1.0", "a", "b", "d", "Si Si", "1 1", "Direct",
   "0.5 0.5 0.5", "0.1 0.1 0.1"].map String.data

def dupPd : ParsedData := forceOkPd (parse_poscar dupLines)

def dupR : SubResult := forceOkSub (substituteCore dupPd "Va".data "Si".data none)

/-- A substitution species containing whitespace. -/
def xyR : SubResult := forceOkSub (substituteCore demoPd "X Y".data "Si".data none)

def xyOut : List Str × Str := forceOkOut (substitute demoPd "X Y".data "Si".data none)

def xyPd2 : ParsedData := forceOkPd (parse_poscar xyOut.1)

/-- The specification_s example points for the nearest-point selector. -/
def pts3 : List Coord :=
  [[⟨0, 0⟩, ⟨0, 0⟩, ⟨0, 0⟩], [⟨5, -1⟩, ⟨5, -1⟩, ⟨5, -1⟩], [⟨1, 0⟩, ⟨1, 0⟩, ⟨1, 0⟩]]

def tgt3 : Coord := [⟨4, -1⟩, ⟨4, -1⟩, ⟨4, -1⟩]

/-! ### Semantics of the exact decimals -/

theorem toRat_stripZeros (f : Nat) (m e : Int) :
    (stripZeros f m e).toRat = (m : ℚ) * (10:ℚ) ^ e := by
  induction f generalizing m e with
  | zero => rfl
  | succ f ih =>
    rw [stripZeros]
    split
    · simp_all [Dec.toRat]
    · split
      · next hm hz =>
        rw [ih]
        have hdecomp : (10:Int) * (m / 10) = m := by omega
        have : ((m / 10 : Int) : ℚ) * (10:ℚ) ^ (e + 1) =
            (((10:Int) * (m / 10) : Int) : ℚ) * (10:ℚ) ^ e := by
          rw [zpow_add_one₀ (by norm_num : (10:ℚ) ≠ 0)]
          push_cast
          ring
        rw [this, hdecomp]
      · rfl

theorem Dec.toRat_norm (m e : Int) : (Dec.norm m e).toRat = (m : ℚ) * (10:ℚ) ^ e :=
  toRat_stripZeros _ _ _

theorem Dec.toRat_zero : Dec.zero.toRat = 0 := by
  simp [Dec.zero, Dec.toRat]

theorem Dec.toRat_neg (a : Dec) : a.neg.toRat = -a.toRat := by
  simp [Dec.neg, Dec.toRat]

theorem toNat_sub_exp {x y : Int} (h : x ≤ y) : (((y - x).toNat : Int)) = y - x :=
  Int.toNat_of_nonneg (by omega)

theorem pow_toNat_sub {x y : Int} (h : x ≤ y) :
    ((10:ℚ)) ^ ((y - x).toNat) = (10:ℚ) ^ (y - x) := by
  rw [← zpow_natCast (10:ℚ) (y - x).toNat, toNat_sub_exp h]

theorem Dec.toRat_add (a b : Dec) : (a.add b).toRat = a.toRat + b.toRat := by
  unfold Dec.add
  split
  · next h =>
    rw [Dec.toRat_norm, Dec.toRat]
    push_cast
    rw [pow_toNat_sub h, Dec.toRat, add_mul, mul_assoc,
      ← zpow_add₀ (by norm_num : (10:ℚ) ≠ 0), sub_add_cancel]
  · next h =>
    rw [Dec.toRat_norm, Dec.toRat]
    push_cast
    rw [pow_toNat_sub (by omega : b.e ≤ a.e), Dec.toRat, add_mul, mul_assoc,
      ← zpow_add₀ (by norm_num : (10:ℚ) ≠ 0), sub_add_cancel]
    ring

theorem Dec.toRat_sub (a b : Dec) : (a.sub b).toRat = a.toRat - b.toRat := by
  rw [Dec.sub, Dec.toRat_add, Dec.toRat_neg]
  ring

theorem Dec.toRat_mul (a b : Dec) : (a.mul b).toRat = a.toRat * b.toRat := by
  rw [Dec.mul, Dec.toRat_norm, Dec.toRat, Dec.toRat]
  push_cast
  rw [zpow_add₀ (by norm_num : (10:ℚ) ≠ 0)]
  ring

theorem Dec.ltb_iff (a b : Dec) : a.ltb b = true ↔ a.toRat < b.toRat := by
  unfold Dec.ltb
  split
  · next h =>
    rw [decide_eq_true_iff, Dec.toRat, Dec.toRat]
    have hb : (b.m : ℚ) * (10:ℚ) ^ b.e =
        ((b.m : ℚ) * (10:ℚ) ^ ((b.e - a.e).toNat)) * (10:ℚ) ^ a.e := by
      rw [pow_toNat_sub h, mul_assoc, ← zpow_add₀ (by norm_num : (10:ℚ) ≠ 0), sub_add_cancel]
    rw [hb, mul_lt_mul_right (zpow_pos (by norm_num : (0:ℚ) < 10) a.e)]
    constructor
    · intro hlt; exact_mod_cast hlt
    · intro hlt; exact_mod_cast hlt
  · next h =>
    rw [decide_eq_true_iff, Dec.toRat, Dec.toRat]
    have ha : (a.m : ℚ) * (10:ℚ) ^ a.e =
        ((a.m : ℚ) * (10:ℚ) ^ ((a.e - b.e).toNat)) * (10:ℚ) ^ b.e := by
      rw [pow_toNat_sub (by omega : b.e ≤ a.e), mul_assoc,
        ← zpow_add₀ (by norm_num : (10:ℚ) ≠ 0), sub_add_cancel]
    rw [ha, mul_lt_mul_right (zpow_pos (by norm_num : (0:ℚ) < 10) b.e)]
    constructor
    · intro hlt; exact_mod_cast hlt
    · intro hlt; exact_mod_cast hlt

theorem Dec.ltb_false_iff (a b : Dec) : a.ltb b = false ↔ b.toRat ≤ a.toRat := by
  rw [← not_lt, ← Dec.ltb_iff]
  cases a.ltb b <;> simp

theorem distanceSq_nonneg_aux (l : List Dec) (z : Dec) (h : 0 ≤ z.toRat)
    (hl : ∀ x ∈ l, 0 ≤ x.toRat) : 0 ≤ (l.foldl Dec.add z).toRat := by
  induction l generalizing z with
  | nil => exact h
  | cons x xs ih =>
    refine ih (z.add x) ?_ (fun y hy => hl y (by simp [hy]))
    rw [Dec.toRat_add]
    have := hl x (by simp)
    linarith

/-- The squared distance is semantically nonnegative. -/
theorem distanceSq_nonneg (p q : Coord) : 0 ≤ (distanceSq p q).toRat := by
  refine distanceSq_nonneg_aux _ _ (by rw [Dec.toRat_zero]) ?_
  intro x hx
  simp only [List.mem_map] at hx
  obtain ⟨ab, _, rfl⟩ := hx
  rw [Dec.toRat_mul]
  exact mul_self_nonneg _

/-! ### The leftmost-minimum property of the selection fold -/

theorem foldl_min_decomp {α : Type _} (kb : α → α → Bool) (key : α → ℚ)
    (hkb : ∀ a b, kb a b = true ↔ key a < key b) :
    ∀ (rest : List α) (p r : α),
      rest.foldl (fun best q => if kb q best then q else best) p = r →
      ∃ l₁ l₂, p :: rest = l₁ ++ r :: l₂ ∧
        (∀ q ∈ l₁, key r < key q) ∧ (∀ q ∈ l₂, key r ≤ key q) := by
  intro rest
  induction rest with
  | nil =>
    intro p r h
    simp only [List.foldl_nil] at h
    subst h
    exact ⟨[], [], rfl, by simp, by simp⟩
  | cons q rs ih =>
    intro p r h
    rw [List.foldl_cons] at h
    by_cases hq : kb q p = true
    · rw [if_pos hq] at h
      obtain ⟨m₁, m₂, hdecomp, hm₁, hm₂⟩ := ih q r h
      have hqp : key q < key p := (hkb q p).mp hq
      have hrq : key r ≤ key q := by
        cases m₁ with
        | nil =>
          have h2 : q = r := by
            have := hdecomp
            simp only [List.nil_append, List.cons.injEq] at this
            exact this.1
          rw [← h2]
        | cons y m₁' =>
          have h2 : q = y := by
            have := hdecomp
            simp only [List.cons_append, List.cons.injEq] at this
            exact this.1
          rw [h2]
          exact le_of_lt (hm₁ y (by simp))
      refine ⟨p :: m₁, m₂, ?_, ?_, hm₂⟩
      · rw [List.cons_append, ← hdecomp]
      · intro x hx
        rcases List.mem_cons.mp hx with rfl | hx'
        · exact lt_of_le_of_lt hrq hqp
        · exact hm₁ x hx'
    · rw [if_neg hq] at h
      obtain ⟨m₁, m₂, hdecomp, hm₁, hm₂⟩ := ih p r h
      have hpq : key p ≤ key q := le_of_not_lt (fun hlt => hq ((hkb q p).mpr hlt))
      cases m₁ with
      | nil =>
        have h2 : p = r ∧ rs = m₂ := by
          have := hdecomp
          simp only [List.nil_append, List.cons.injEq] at this
          exact this
        refine ⟨[], q :: rs, by rw [List.nil_append, h2.1], by simp, ?_⟩
        intro x hx
        rcases List.mem_cons.mp hx with rfl | hx'
        · rw [← h2.1]; exact hpq
        · rw [← h2.1]
          rw [h2.1]
          exact hm₂ x (h2.2 ▸ hx')
      | cons y m₁' =>
        have h2 : p = y ∧ rs = m₁' ++ r :: m₂ := by
          have := hdecomp
          simp only [List.cons_append, List.cons.injEq] at this
          exact this
        have hrp : key r < key p := by
          rw [h2.1]
          exact hm₁ y (by simp)
        refine ⟨p :: q :: m₁', m₂, ?_, ?_, hm₂⟩
        · rw [h2.2]
          simp
        · intro x hx
          rcases List.mem_cons.mp hx with rfl | hx'
          · exact hrp
          · rcases List.mem_cons.mp hx' with rfl | hx''
            · exact lt_of_lt_of_le hrp hpq
            · exact hm₁ x (by simp [hx''])

/-! ### Dictionary lemmas -/

theorem dictGet?_dictSet_self (d : Dict) (k : Str) (v : List Coord) :
    dictGet? (dictSet d k v) k = some v := by
  induction d with
  | nil => simp [dictSet, dictGet?]
  | cons p rest ih =>
    simp only [dictSet]
    by_cases h : p.1 = k
    · rw [if_pos h]
      simp [dictGet?, h]
    · rw [if_neg h]
      simp [dictGet?, h, ih]

theorem dictGet?_dictSet_ne (d : Dict) (k k' : Str) (v : List Coord) (h : k' ≠ k) :
    dictGet? (dictSet d k v) k' = dictGet? d k' := by
  induction d with
  | nil =>
    simp only [dictSet, dictGet?]
    rw [if_neg (fun hh : k = k' => h hh.symm)]
  | cons p rest ih =>
    simp only [dictSet]
    by_cases hp : p.1 = k
    · rw [if_pos hp]
      have hne : ¬ p.1 = k' := by rw [hp]; exact fun hh => h hh.symm
      simp only [dictGet?]
      rw [if_neg hne, if_neg hne]
    · rw [if_neg hp]
      simp only [dictGet?, ih]

theorem dictSet_of_absent (d : Dict) (k : Str) (v : List Coord)
    (h : dictGet? d k = none) : dictSet d k v = d ++ [(k, v)] := by
  induction d with
  | nil => simp [dictSet]
  | cons p rest ih =>
    by_cases hp : p.1 = k
    · simp [dictGet?, hp] at h
    · simp only [dictGet?, hp, if_false, ite_false] at h
      simp [dictSet, hp, ih h]

theorem dictGet?_append_left (d₁ d₂ : Dict) (k : Str) (h : (dictGet? d₁ k).isSome) :
    dictGet? (d₁ ++ d₂) k = dictGet? d₁ k := by
  induction d₁ with
  | nil => simp [dictGet?] at h
  | cons p rest ih =>
    by_cases hp : p.1 = k
    · simp [dictGet?, hp]
    · simp only [dictGet?, hp, if_false, ite_false] at h ⊢
      exact ih h

theorem dictGet?_append_right (d₁ d₂ : Dict) (k : Str) (h : dictGet? d₁ k = none) :
    dictGet? (d₁ ++ d₂) k = dictGet? d₂ k := by
  induction d₁ with
  | nil => simp [dictGet?]
  | cons p rest ih =>
    by_cases hp : p.1 = k
    · simp [dictGet?, hp] at h
    · simp only [dictGet?, hp, if_false, ite_false] at h ⊢
      exact ih h

/-! ### `mapOpt` and `mapExcept` lemmas -/

theorem mapOpt_eq_some_of_forall {α β : Type _} (f : α → Option β) (g : α → β) :
    ∀ l : List α, (∀ a ∈ l, f a = some (g a)) → mapOpt f l = some (l.map g) := by
  intro l
  induction l with
  | nil => intro _; rfl
  | cons a l ih =>
    intro h
    simp only [mapOpt, h a (by simp), ih (fun x hx => h x (by simp [hx])), List.map]

theorem mapOpt_eq_some_elim {α β : Type _} (f : α → Option β) :
    ∀ (l : List α) (bs : List β), mapOpt f l = some bs →
      bs.length = l.length ∧ ∀ i a, l.get? i = some a → f a = bs.get? i := by
  intro l
  induction l with
  | nil =>
    intro bs h
    simp only [mapOpt, Option.some.injEq] at h
    subst h
    exact ⟨rfl, by intro i a h; simp at h⟩
  | cons a l ih =>
    intro bs h
    simp only [mapOpt] at h
    cases hfa : f a with
    | none => rw [hfa] at h; exact absurd h (by simp)
    | some b =>
      rw [hfa] at h
      cases hml : mapOpt f l with
      | none => rw [hml] at h; exact absurd h (by simp)
      | some bs' =>
        rw [hml] at h
        simp only [Option.some.injEq] at h
        subst h
        obtain ⟨hlen, hget⟩ := ih bs' hml
        refine ⟨by simp [hlen], ?_⟩
        intro i x hx
        cases i with
        | zero => simp only [List.get?] at hx ⊢; rw [← hfa]; congr 1; exact (Option.some.injEq _ _).mp hx |>.symm ▸ rfl
        | succ j => simp only [List.get?] at hx ⊢; exact hget j x hx

theorem mapExcept_eq_ok_of_forall (f : α → Except Err β) (g : α → β) :
    ∀ l : List α, (∀ a ∈ l, f a = .ok (g a)) → mapExcept f l = .ok (l.map g) := by
  intro l
  induction l with
  | nil => intro _; rfl
  | cons a l ih =>
    intro h
    simp only [mapExcept, h a (by simp), ih (fun x hx => h x (by simp [hx])), List.map]

theorem mapExcept_ok_elim (f : α → Except Err β) :
    ∀ (l : List α) (bs : List β), mapExcept f l = .ok bs →
      ∀ a ∈ l, ∃ b, f a = .ok b := by
  intro l
  induction l with
  | nil => intro bs _ a ha; simp at ha
  | cons x l ih =>
    intro bs h a ha
    simp only [mapExcept] at h
    cases hfx : f x with
    | error e => rw [hfx] at h; exact absurd h (by simp)
    | ok b =>
      rw [hfx] at h
      cases hml : mapExcept f l with
      | error e => rw [hml] at h; exact absurd h (by simp)
      | ok bs' =>
        rcases List.mem_cons.mp ha with rfl | ha'
        · exact ⟨b, hfx⟩
        · exact ih bs' hml a ha'

/-! ### Digit strings: rendering and parsing round trips -/

theorem digitChar_val (d : Nat) (h : d < 10) : (Nat.digitChar d).toNat - 48 = d := by
  interval_cases d <;> decide

theorem digitChar_isDigit (d : Nat) (h : d < 10) : (Nat.digitChar d).isDigit = true := by
  interval_cases d <;> decide

theorem natDigitsRevAux_foldr (f n : Nat) (h : n ≤ f) :
    (natDigitsRevAux f n).foldr (fun c a => a * 10 + (c.toNat - 48)) 0 = n := by
  induction f generalizing n with
  | zero =>
    have : n = 0 := by omega
    subst this
    decide
  | succ f ih =>
    rw [natDigitsRevAux]
    split
    · next h10 =>
      simp only [List.foldr]
      rw [digitChar_val n h10]
      omega
    · next h10 =>
      have hd : n / 10 ≤ f := by
        have := Nat.div_lt_self (by omega : 0 < n) (by omega : 1 < 10)
        omega
      simp only [List.foldr, ih (n / 10) hd]
      rw [digitChar_val (n % 10) (by omega)]
      omega

theorem digitsToNat_natToStr (n : Nat) : digitsToNat (natToStr n) = n := by
  rw [natToStr, digitsToNat, List.foldl_reverse]
  exact natDigitsRevAux_foldr n n le_rfl

theorem natDigitsRevAux_digits (f n : Nat) (h : n ≤ f) :
    ∀ c ∈ natDigitsRevAux f n, c.isDigit = true := by
  induction f generalizing n with
  | zero =>
    have : n = 0 := by omega
    subst this
    decide
  | succ f ih =>
    rw [natDigitsRevAux]
    split
    · next h10 =>
      intro c hc
      simp only [List.mem_singleton] at hc
      subst hc
      exact digitChar_isDigit n h10
    · next h10 =>
      intro c hc
      rcases List.mem_cons.mp hc with rfl | hc'
      · exact digitChar_isDigit (n % 10) (by omega)
      · have hd : n / 10 ≤ f := by
          have := Nat.div_lt_self (by omega : 0 < n) (by omega : 1 < 10)
          omega
        exact ih (n / 10) hd c hc'

theorem natToStr_all_digits (n : Nat) : ∀ c ∈ natToStr n, c.isDigit = true := by
  intro c hc
  exact natDigitsRevAux_digits n n le_rfl c (List.mem_reverse.mp hc)

theorem natDigitsRevAux_ne_nil (f n : Nat) : natDigitsRevAux f n ≠ [] := by
  cases f with
  | zero => simp [natDigitsRevAux]
  | succ f =>
    rw [natDigitsRevAux]
    split <;> simp

theorem natToStr_ne_nil (n : Nat) : natToStr n ≠ [] := by
  rw [natToStr]
  simpa using natDigitsRevAux_ne_nil n n

theorem natDigitsRevAux_length (f n k : Nat) (hf : n ≤ f) (hk : n < 10 ^ k) (h1 : 1 ≤ k) :
    (natDigitsRevAux f n).length ≤ k := by
  induction f generalizing n k with
  | zero =>
    have : n = 0 := by omega
    subst this
    simpa [natDigitsRevAux] using h1
  | succ f ih =>
    rw [natDigitsRevAux]
    split
    · next h10 => simpa using h1
    · next h10 =>
      have hk2 : 2 ≤ k := by
        by_contra hc
        have : k = 1 := by omega
        subst this
        simp at hk
        omega
      have hd : n / 10 ≤ f := by
        have := Nat.div_lt_self (by omega : 0 < n) (by omega : 1 < 10)
        omega
      have hdk : n / 10 < 10 ^ (k - 1) := by
        have hpow : 10 ^ k = 10 ^ (k - 1) * 10 := by
          rw [← pow_succ]
          congr 1
          omega
        rw [Nat.div_lt_iff_lt_mul (by omega : 0 < 10)]
        omega
      have := ih (n / 10) (k - 1) hd hdk (by omega)
      simp only [List.length_cons]
      omega

theorem natToStr_length_le (n k : Nat) (hk : n < 10 ^ k) (h1 : 1 ≤ k) :
    (natToStr n).length ≤ k := by
  rw [natToStr, List.length_reverse]
  exact natDigitsRevAux_length n n k le_rfl hk h1

theorem digitsToNat_replicate_zero (k : Nat) (s : Str) :
    digitsToNat (List.replicate k '0' ++ s) = digitsToNat s := by
  induction k with
  | zero => simp
  | succ k ih =>
    rw [List.replicate_succ, List.cons_append]
    show digitsToNat (List.replicate k '0' ++ s) = digitsToNat s
    exact ih

theorem padZeros16_length (s : Str) (h : s.length ≤ 16) : (padZeros16 s).length = 16 := by
  simp [padZeros16]
  omega

theorem padZeros16_val (s : Str) : digitsToNat (padZeros16 s) = digitsToNat s :=
  digitsToNat_replicate_zero _ s

theorem padZeros16_all_digits (s : Str) (h : ∀ c ∈ s, c.isDigit = true) :
    ∀ c ∈ padZeros16 s, c.isDigit = true := by
  intro c hc
  rcases List.mem_append.mp hc with hc' | hc'
  · have : c = '0' := List.eq_of_mem_replicate hc'
    subst this
    decide
  · exact h c hc'

theorem isDigit_ne_special (c : Char) (h : c.isDigit = true) :
    c ≠ '+' ∧ c ≠ '-' ∧ c ≠ '.' ∧ c ≠ 'e' ∧ c ≠ 'E' := by
  refine ⟨?_, ?_, ?_, ?_, ?_⟩ <;> (intro hc; subst hc; exact absurd h (by decide))

theorem isDigit_not_ws (c : Char) (h : c.isDigit = true) : isWs c = false := by
  by_contra hw
  have hw' : isWs c = true := by revert hw; cases (isWs c) <;> simp
  simp only [isWs, Char.isWhitespace, Bool.or_eq_true, decide_eq_true_eq] at hw'
  have hc : c = ' ' ∨ c = '\t' ∨ c = '\x0d' ∨ c = '\n' := by tauto
  rcases hc with rfl | rfl | rfl | rfl <;> exact absurd h (by decide)

/-! ### takeWhile / dropWhile helpers -/

theorem takeWhile_all {α : Type _} (p : α → Bool) (s : List α) (h : ∀ c ∈ s, p c = true) :
    s.takeWhile p = s ∧ s.dropWhile p = [] := by
  induction s with
  | nil => simp
  | cons c rest ih =>
    have hc := h c (by simp)
    have := ih (fun x hx => h x (by simp [hx]))
    simp [List.takeWhile_cons, List.dropWhile_cons, hc, this.1, this.2]

theorem takeWhile_append_stop {α : Type _} (p : α → Bool) (l : List α) (x : α) (r : List α)
    (hl : ∀ c ∈ l, p c = true) (hx : p x = false) :
    (l ++ x :: r).takeWhile p = l ∧ (l ++ x :: r).dropWhile p = x :: r := by
  induction l with
  | nil => simp [List.takeWhile_cons, List.dropWhile_cons, hx]
  | cons c rest ih =>
    have hc := hl c (by simp)
    have := ih (fun y hy => hl y (by simp [hy]))
    simp [List.takeWhile_cons, List.dropWhile_cons, hc, this.1, this.2]

/-! ### Round trips for the rendered number tokens -/

theorem intToStr_ne_nil (i : Int) : intToStr i ≠ [] := by
  rw [intToStr]
  split
  · simp
  · exact natToStr_ne_nil _

theorem intToStr_not_ws (i : Int) : ∀ c ∈ intToStr i, isWs c = false := by
  intro c hc
  rw [intToStr] at hc
  split at hc
  · rcases List.mem_cons.mp hc with rfl | hc'
    · decide
    · exact isDigit_not_ws c (natToStr_all_digits _ c hc')
  · exact isDigit_not_ws c (natToStr_all_digits _ c hc)

theorem pyInt?_intToStr (i : Int) : pyInt? (intToStr i) = some i := by
  rw [intToStr]
  split
  · next hneg =>
    show pyInt? ('-' :: natToStr i.natAbs) = some i
    have hall : (natToStr i.natAbs).all Char.isDigit = true :=
      List.all_eq_true.mpr (natToStr_all_digits _)
    simp only [pyInt?]
    rw [if_neg (show ¬('-' = '+') from by decide), if_pos trivial]
    rw [if_pos (show natToStr i.natAbs ≠ [] ∧ (natToStr i.natAbs).all Char.isDigit = true from
      ⟨natToStr_ne_nil _, hall⟩)]
    rw [digitsToNat_natToStr]
    simp only [Option.some.injEq]
    omega
  · next hpos =>
    obtain ⟨c, dd, hcd⟩ : ∃ c dd, natToStr i.toNat = c :: dd := by
      cases hns : natToStr i.toNat with
      | nil => exact absurd hns (natToStr_ne_nil _)
      | cons c dd => exact ⟨c, dd, rfl⟩
    rw [hcd]
    have hcdig : c.isDigit = true := by
      have := natToStr_all_digits i.toNat
      rw [hcd] at this
      exact this c (by simp)
    have hne := isDigit_ne_special c hcdig
    have hall : (c :: dd).all Char.isDigit = true := by
      rw [← hcd]
      exact List.all_eq_true.mpr (natToStr_all_digits _)
    simp only [pyInt?]
    rw [if_neg hne.1, if_neg hne.2.1, if_pos hall, ← hcd, digitsToNat_natToStr]
    simp only [Option.some.injEq]
    omega

theorem neg_stripZeros (f : Nat) (m e : Int) : (stripZeros f m e).neg = stripZeros f (-m) e := by
  induction f generalizing m e with
  | zero => simp [stripZeros, Dec.neg]
  | succ f ih =>
    rw [stripZeros, stripZeros]
    by_cases hm : m = 0
    · simp [hm, Dec.neg]
    · rw [if_neg hm, if_neg (by omega : ¬ (-m) = 0)]
      by_cases hz : m % 10 = 0
      · rw [if_pos hz, if_pos (by omega : (-m) % 10 = 0), ih]
        congr 1
        omega
      · rw [if_neg hz, if_neg (by omega : ¬ (-m) % 10 = 0)]
        simp [Dec.neg]

theorem Dec.neg_norm (m e : Int) : (Dec.norm m e).neg = Dec.norm (-m) e := by
  rw [Dec.norm, Dec.norm, neg_stripZeros]
  congr 1
  omega

theorem rnd16_r_spec (m D : Int) (hD : 0 < D) :
    0 ≤ m - m.fdiv D * D ∧ m - m.fdiv D * D < D := by
  have hid : m.fdiv D * D + m.fmod D = m := by
    rw [mul_comm]
    exact Int.fdiv_add_fmod m D
  have h1 := Int.fmod_nonneg' m hD
  have h2 := Int.fmod_lt_of_pos m hD
  constructor <;> omega

theorem rnd16_nonpos (d : Dec) (h : d.m < 0) : rnd16 d ≤ 0 := by
  simp only [rnd16]
  split
  · next hk => exact mul_nonpos_of_nonpos_of_nonneg (by omega) (by positivity)
  · next hk =>
    have hD : (0:Int) < 10 ^ (-(d.e + 16)).toNat := by positivity
    have hfl : d.m.fdiv (10 ^ (-(d.e + 16)).toNat) ≤ -1 := by
      by_contra hc
      have hge : 0 ≤ d.m.fdiv (10 ^ (-(d.e + 16)).toNat) := by omega
      nlinarith [mul_nonneg (le_of_lt hD) hge, Int.fdiv_add_fmod d.m (10 ^ (-(d.e + 16)).toNat),
        Int.fmod_nonneg' d.m hD, h]
    split
    · omega
    · split
      · omega
      · split <;> omega

theorem rnd16_nonneg (d : Dec) (h : 0 ≤ d.m) : 0 ≤ rnd16 d := by
  simp only [rnd16]
  split
  · next hk => positivity
  · next hk =>
    have hD : (0:Int) ≤ 10 ^ (-(d.e + 16)).toNat := by positivity
    have hfl : 0 ≤ d.m.fdiv (10 ^ (-(d.e + 16)).toNat) := Int.fdiv_nonneg h hD
    split
    · omega
    · split
      · omega
      · split <;> omega

theorem parseMant_render (a : Nat) :
    parseMant (natToStr (a / 10 ^ 16) ++ '.' :: padZeros16 (natToStr (a % 10 ^ 16))) =
      some (a, 16) := by
  have hip : ∀ c ∈ natToStr (a / 10 ^ 16), Char.isDigit c = true := natToStr_all_digits _
  have hfp : ∀ c ∈ padZeros16 (natToStr (a % 10 ^ 16)), Char.isDigit c = true :=
    padZeros16_all_digits _ (natToStr_all_digits _)
  have hsplit := takeWhile_append_stop Char.isDigit (natToStr (a / 10 ^ 16)) '.'
    (padZeros16 (natToStr (a % 10 ^ 16))) hip (by decide)
  have hlen : (padZeros16 (natToStr (a % 10 ^ 16))).length = 16 := by
    refine padZeros16_length _ ?_
    exact natToStr_length_le _ 16 (Nat.mod_lt _ (by positivity)) (by omega)
  simp only [parseMant, hsplit.1, hsplit.2]
  rw [if_pos ⟨trivial, Or.inl (natToStr_ne_nil _), List.all_eq_true.mpr hfp⟩]
  rw [padZeros16_val, digitsToNat_natToStr, digitsToNat_natToStr, hlen]
  have hD : (0:Nat) < 10 ^ 16 := by positivity
  have := Nat.div_add_mod a (10 ^ 16)
  congr 2
  omega

theorem pyFloatU?_render (a : Nat) :
    pyFloatU? (natToStr (a / 10 ^ 16) ++ '.' :: padZeros16 (natToStr (a % 10 ^ 16))) =
      some (Dec.norm a (-16)) := by
  have hall : ∀ c ∈ natToStr (a / 10 ^ 16) ++ '.' :: padZeros16 (natToStr (a % 10 ^ 16)),
      (fun c => !(decide (c = 'e') || decide (c = 'E'))) c = true := by
    intro c hc
    have hdig : c.isDigit = true ∨ c = '.' := by
      rcases List.mem_append.mp hc with hc' | hc'
      · exact Or.inl (natToStr_all_digits _ c hc')
      · rcases List.mem_cons.mp hc' with rfl | hc''
        · exact Or.inr rfl
        · exact Or.inl (padZeros16_all_digits _ (natToStr_all_digits _) c hc'')
    rcases hdig with hd | rfl
    · have hne := isDigit_ne_special c hd
      simp [hne.2.2.2.1, hne.2.2.2.2]
    · decide
  have htake := takeWhile_all _ _ hall
  simp only [pyFloatU?, htake.1, htake.2, parseMant_render]
  norm_num

theorem fmt16_not_ws (d : Dec) : ∀ c ∈ fmt16 d, isWs c = false := by
  intro c hc
  simp only [fmt16] at hc
  rcases List.mem_append.mp hc with hc' | hc'
  · rcases List.mem_append.mp hc' with hc'' | hc''
    · split at hc''
      · rcases List.mem_singleton.mp hc'' with rfl
        decide
      · simp at hc''
    · exact isDigit_not_ws c (natToStr_all_digits _ c hc'')
  · rcases List.mem_cons.mp hc' with rfl | hc''
    · decide
    · exact isDigit_not_ws c (padZeros16_all_digits _ (natToStr_all_digits _) c hc'')

theorem fmt16_ne_nil (d : Dec) : fmt16 d ≠ [] := by
  simp only [fmt16]
  intro h
  rcases List.append_eq_nil.mp h with ⟨h1, _⟩
  rcases List.append_eq_nil.mp h1 with ⟨_, h2⟩
  exact natToStr_ne_nil _ h2

theorem pyFloat?_fmt16 (d : Dec) : pyFloat? (fmt16 d) = some (round16 d) := by
  by_cases hm : d.m < 0
  · have hshape : fmt16 d = '-' ::
        (natToStr ((rnd16 d).natAbs / 10 ^ 16) ++
          '.' :: padZeros16 (natToStr ((rnd16 d).natAbs % 10 ^ 16))) := by
      simp [fmt16, hm]
    rw [hshape]
    simp only [pyFloat?]
    rw [if_pos trivial, pyFloatU?_render]
    have hnp := rnd16_nonpos d hm
    simp only [Option.map, Dec.neg_norm, round16, Option.some.injEq]
    congr 1
    omega
  · have hshape : fmt16 d =
        natToStr ((rnd16 d).natAbs / 10 ^ 16) ++
          '.' :: padZeros16 (natToStr ((rnd16 d).natAbs % 10 ^ 16)) := by
      simp [fmt16, hm]
    obtain ⟨c, dd, hcd⟩ : ∃ c dd, natToStr ((rnd16 d).natAbs / 10 ^ 16) = c :: dd := by
      cases hns : natToStr ((rnd16 d).natAbs / 10 ^ 16) with
      | nil => exact absurd hns (natToStr_ne_nil _)
      | cons c dd => exact ⟨c, dd, rfl⟩
    have hcdig : c.isDigit = true := by
      have := natToStr_all_digits ((rnd16 d).natAbs / 10 ^ 16)
      rw [hcd] at this
      exact this c (by simp)
    have hne := isDigit_ne_special c hcdig
    rw [hshape, hcd, List.cons_append]
    simp only [pyFloat?]
    rw [if_neg hne.2.1, if_neg hne.1, ← List.cons_append, ← hcd, pyFloatU?_render]
    have hnn := rnd16_nonneg d (by omega)
    simp only [round16, Option.some.injEq]
    congr 1
    omega

/-! ### Splitting serialized lines back into their tokens -/

theorem pySplitAux_tok (t : Str) (s acc : Str) (h : ∀ c ∈ t, isWs c = false) :
    pySplitAux (t ++ s) acc = pySplitAux s (t.reverse ++ acc) := by
  induction t generalizing acc with
  | nil => simp
  | cons c t' ih =>
    rw [List.cons_append, pySplitAux]
    rw [if_neg (by simp [h c (by simp)])]
    rw [ih _ (fun x hx => h x (by simp [hx]))]
    simp

theorem pySplitAux_ws_all (w s : Str) (h : ∀ c ∈ w, isWs c = true) :
    pySplitAux (w ++ s) [] = pySplitAux s [] := by
  induction w with
  | nil => simp
  | cons c w' ih =>
    rw [List.cons_append, pySplitAux, if_pos (h c (by simp)), if_pos rfl]
    exact ih (fun x hx => h x (by simp [hx]))

theorem pySplitAux_allws (s acc : Str) (h : ∀ c ∈ s, isWs c = true) :
    pySplitAux s acc = if acc = [] then [] else [acc.reverse] := by
  induction s generalizing acc with
  | nil => rfl
  | cons c s' ih =>
    rw [pySplitAux, if_pos (h c (by simp))]
    by_cases hacc : acc = []
    · rw [if_pos hacc, ih [] (fun x hx => h x (by simp [hx])), if_pos rfl, if_pos hacc]
    · rw [if_neg hacc, ih [] (fun x hx => h x (by simp [hx])), if_pos rfl, if_neg hacc]

theorem pySplitAux_sep (w s acc : Str) (hw : ∀ c ∈ w, isWs c = true) (hne : w ≠ [])
    (hacc : acc ≠ []) :
    pySplitAux (w ++ s) acc = acc.reverse :: pySplitAux s [] := by
  cases w with
  | nil => exact absurd rfl hne
  | cons c w' =>
    rw [List.cons_append, pySplitAux, if_pos (hw c (by simp)), if_neg hacc]
    rw [pySplitAux_ws_all w' s (fun x hx => hw x (by simp [hx]))]

theorem pySplit_join (sep : Str) (hsepne : sep ≠ []) (hsepws : ∀ c ∈ sep, isWs c = true)
    (suffix : Str) (hsuf : ∀ c ∈ suffix, isWs c = true) :
    ∀ tks : List Str, (∀ t ∈ tks, t ≠ [] ∧ ∀ c ∈ t, isWs c = false) →
      pySplitAux (joinSep sep tks ++ suffix) [] = tks := by
  intro tks
  induction tks with
  | nil =>
    intro _
    rw [joinSep, List.nil_append, pySplitAux_allws _ _ hsuf, if_pos rfl]
  | cons t tks' ih =>
    intro h
    cases tks' with
    | nil =>
      rw [joinSep, pySplitAux_tok t _ _ (h t (by simp)).2,
        pySplitAux_allws _ _ hsuf, List.append_nil,
        if_neg (by simpa using (h t (by simp)).1), List.reverse_reverse]
    | cons t2 tks'' =>
      rw [(show joinSep sep (t :: t2 :: tks'') = t ++ sep ++ joinSep sep (t2 :: tks'') from rfl),
        List.append_assoc (t ++ sep), List.append_assoc t,
        pySplitAux_tok t _ _ (h t (by simp)).2, List.append_nil,
        pySplitAux_sep sep _ _ hsepws hsepne (by simpa using (h t (by simp)).1),
        List.reverse_reverse]
      exact congrArg _ (ih (fun x hx => h x (by simp [hx])))

theorem pySplit_line (lead sep suffix : Str) (hlead : ∀ c ∈ lead, isWs c = true)
    (hsepne : sep ≠ []) (hsepws : ∀ c ∈ sep, isWs c = true)
    (hsuf : ∀ c ∈ suffix, isWs c = true)
    (tks : List Str) (htks : ∀ t ∈ tks, t ≠ [] ∧ ∀ c ∈ t, isWs c = false) :
    pySplit (lead ++ (joinSep sep tks ++ suffix)) = tks := by
  rw [pySplit, pySplitAux_ws_all lead _ hlead]
  exact pySplit_join sep hsepne hsepws suffix hsuf tks htks

/-! ### Stripping lemmas for the marker round trip -/

theorem dropWhile_ws_append (w s : Str) (hw : ∀ c ∈ w, isWs c = true) :
    (w ++ s).dropWhile isWs = s.dropWhile isWs := by
  induction w with
  | nil => simp
  | cons c w' ih =>
    rw [List.cons_append, List.dropWhile_cons, if_pos (hw c (by simp))]
    exact ih (fun x hx => hw x (by simp [hx]))

theorem dropWhile_append_of_ne_nil {p : Char → Bool} (s w : Str) (h : s.dropWhile p ≠ []) :
    (s ++ w).dropWhile p = s.dropWhile p ++ w := by
  induction s with
  | nil => simp at h
  | cons c s' ih =>
    rw [List.cons_append]
    simp only [List.dropWhile_cons] at h ⊢
    by_cases hc : p c = true
    · rw [if_pos hc] at h ⊢
      rw [if_pos hc]
      exact ih h
    · rw [if_neg hc]
      rw [if_neg hc]
      rw [List.cons_append]

theorem dropWhile_first_false {p : Char → Bool} (s : Str) (c : Char) (t : Str)
    (h : s.dropWhile p = c :: t) : p c = false := by
  induction s with
  | nil => simp at h
  | cons x s' ih =>
    rw [List.dropWhile_cons] at h
    by_cases hx : p x = true
    · rw [if_pos hx] at h
      exact ih h
    · rw [if_neg hx] at h
      rcases h with ⟨rfl, rfl⟩
      simpa using hx

theorem dropWhile_idem {p : Char → Bool} (s : Str) :
    (s.dropWhile p).dropWhile p = s.dropWhile p := by
  cases hs : s.dropWhile p with
  | nil => rfl
  | cons c t =>
    rw [List.dropWhile_cons, if_neg (by simp [dropWhile_first_false s c t hs])]

theorem length_dropWhile_le {p : Char → Bool} (l : Str) :
    (l.dropWhile p).length ≤ l.length := by
  induction l with
  | nil => simp
  | cons c l' ih =>
    rw [List.dropWhile_cons]
    by_cases hc : p c = true
    · rw [if_pos hc]
      simp only [List.length_cons]
      omega
    · rw [if_neg hc]

theorem dropWhile_reverse_head (u : Str) (hu : u.dropWhile isWs = u) :
    ((u.reverse.dropWhile isWs).reverse).dropWhile isWs = (u.reverse.dropWhile isWs).reverse := by
  cases hvr : (u.reverse.dropWhile isWs).reverse with
  | nil => simp
  | cons c t =>
    have hz : u = (u.reverse.dropWhile isWs).reverse ++ (u.reverse.takeWhile isWs).reverse := by
      have hsplit := List.takeWhile_append_dropWhile (p := isWs) (l := u.reverse)
      calc u = u.reverse.reverse := by simp
        _ = (u.reverse.takeWhile isWs ++ u.reverse.dropWhile isWs).reverse := by rw [hsplit]
        _ = (u.reverse.dropWhile isWs).reverse ++ (u.reverse.takeWhile isWs).reverse := by
            rw [List.reverse_append]
    rw [hvr] at hz
    have hc : isWs c = false := by
      rw [List.cons_append] at hz
      have hdu : u.dropWhile isWs = u := hu
      by_contra hcc
      have hct : isWs c = true := by revert hcc; cases (isWs c) <;> simp
      rw [hz, List.dropWhile_cons, if_pos hct] at hdu
      have hlen := congrArg List.length hdu
      have hle := length_dropWhile_le (p := isWs) (t ++ (u.reverse.takeWhile isWs).reverse)
      simp only [List.length_cons] at hlen
      omega
    rw [List.dropWhile_cons, if_neg (by simp [hc])]

theorem pyStrip_append_ws (s w : Str) (hw : ∀ c ∈ w, isWs c = true) :
    pyStrip (s ++ w) = pyStrip s := by
  unfold pyStrip
  by_cases h : s.dropWhile isWs = []
  · have hsw : ∀ c ∈ s, isWs c = true := by
      intro c hc
      have := List.dropWhile_eq_nil_iff.mp h
      exact this c hc
    have h2 : (s ++ w).dropWhile isWs = [] := by
      rw [List.dropWhile_eq_nil_iff]
      intro c hc
      rcases List.mem_append.mp hc with hc' | hc'
      · exact hsw c hc'
      · exact hw c hc'
    rw [h, h2]
  · rw [dropWhile_append_of_ne_nil s w h, List.reverse_append,
      dropWhile_ws_append w.reverse _ (fun c hc => hw c (List.mem_reverse.mp hc))]

theorem pyStrip_idem (s : Str) : pyStrip (pyStrip s) = pyStrip s := by
  unfold pyStrip
  rw [dropWhile_reverse_head (s.dropWhile isWs) (dropWhile_idem s), List.reverse_reverse,
    dropWhile_idem (s.dropWhile isWs).reverse]

theorem pyStrip_strip_nl (l : Str) : pyStrip (pyStrip l ++ ['\n']) = pyStrip l := by
  rw [pyStrip_append_ws _ _ (by decide), pyStrip_idem]

theorem isCoordMarker_strip_nl (l : Str) :
    isCoordMarker (pyStrip l ++ ['\n']) = isCoordMarker l := by
  unfold isCoordMarker
  rw [pyStrip_strip_nl]

/-! ### Reading the coordinate block -/

theorem readPositions_ok_length (lines : List Str) :
    ∀ (n : Nat) (start : Nat) (ps : List Coord),
      readPositions lines start n = .ok ps → ps.length = n := by
  intro n
  induction n with
  | zero =>
    intro start ps h
    simp only [readPositions] at h
    cases h
    rfl
  | succ n ih =>
    intro start ps h
    cases hl : lines.get? start with
    | none => simp only [readPositions, hl] at h; exact Except.noConfusion h
    | some l =>
      cases hp : parseCoordLine l with
      | none => simp only [readPositions, hl, hp] at h; exact Except.noConfusion h
      | some p =>
        cases hr : readPositions lines (start + 1) n with
        | error e => simp only [readPositions, hl, hp, hr] at h; exact Except.noConfusion h
        | ok ps' =>
          simp only [readPositions, hl, hp, hr] at h
          cases h
          simp [ih (start + 1) ps' hr]

theorem readPositions_ok_get (lines : List Str) :
    ∀ (n : Nat) (start : Nat) (ps : List Coord),
      readPositions lines start n = .ok ps →
      ∀ i < n, ∃ l p, lines.get? (start + i) = some l ∧ parseCoordLine l = some p ∧
        ps.get? i = some p := by
  intro n
  induction n with
  | zero =>
    intro start ps _ i hi
    omega
  | succ n ih =>
    intro start ps h i hi
    cases hl : lines.get? start with
    | none => simp only [readPositions, hl] at h; exact Except.noConfusion h
    | some l =>
      cases hp : parseCoordLine l with
      | none => simp only [readPositions, hl, hp] at h; exact Except.noConfusion h
      | some p =>
        cases hr : readPositions lines (start + 1) n with
        | error e => simp only [readPositions, hl, hp, hr] at h; exact Except.noConfusion h
        | ok ps' =>
          simp only [readPositions, hl, hp, hr] at h
          cases h
          cases i with
          | zero => exact ⟨l, p, by simpa using hl, hp, rfl⟩
          | succ j =>
            obtain ⟨l', p', h1, h2, h3⟩ := ih (start + 1) ps' hr j (by omega)
            exact ⟨l', p', by rw [← h1]; congr 1; omega, h2, h3⟩

theorem readPositions_ok_of (lines : List Str) :
    ∀ (n : Nat) (start : Nat),
      (∀ i < n, ∃ l p, lines.get? (start + i) = some l ∧ parseCoordLine l = some p) →
      ∃ ps, readPositions lines start n = .ok ps := by
  intro n
  induction n with
  | zero => intro start _; exact ⟨[], rfl⟩
  | succ n ih =>
    intro start h
    obtain ⟨l, p, hl, hp⟩ := h 0 (by omega)
    rw [Nat.add_zero] at hl
    obtain ⟨ps', hps'⟩ := ih (start + 1) (fun i hi => by
      obtain ⟨l', p', h1, h2⟩ := h (i + 1) (by omega)
      exact ⟨l', p', by rw [← h1]; congr 1; omega, h2⟩)
    refine ⟨p :: ps', ?_⟩
    simp only [readPositions, hl, hp, hps']

theorem readPositions_append (tail : List Str) (g : Str → Coord) :
    ∀ (ls : List Str) (pre : List Str),
      (∀ l ∈ ls, parseCoordLine l = some (g l)) →
      readPositions (pre ++ ls ++ tail) pre.length ls.length = .ok (ls.map g) := by
  intro ls
  induction ls with
  | nil => intro pre _; rfl
  | cons l ls' ih =>
    intro pre hg
    have hget : (pre ++ (l :: ls') ++ tail).get? pre.length = some l := by
      rw [List.get?_eq_getElem?, List.append_assoc,
        List.getElem?_append_right (le_refl pre.length)]
      simp
    have hmv : pre ++ (l :: ls') ++ tail = (pre ++ [l]) ++ ls' ++ tail := by simp
    have hrec := ih (pre ++ [l]) (fun x hx => hg x (by simp [hx]))
    rw [List.length_append, List.length_singleton] at hrec
    rw [← hmv] at hrec
    simp only [List.length_cons, readPositions, hget, hg l (by simp), hrec, List.map]

/-! ### Characterizing the parser -/

theorem parse_poscar_ok_elim (lines : List Str) (pd : ParsedData)
    (h : parse_poscar lines = .ok pd) :
    ∃ l5 l6 counts ci atomic,
      lines.get? 5 = some l5 ∧ lines.get? 6 = some l6 ∧
      mapOpt pyInt? (pySplit l6) = some counts ∧
      firstMarkerIdx lines = some ci ∧
      readPositions lines (ci + 1) counts.sum.toNat = .ok atomic ∧
      pd = ⟨lines, pySplit l5, counts, pyStrip (lines.getD ci []),
            buildDict ((pySplit l5).zip counts) atomic 0 []⟩ := by
  cases h5 : lines.get? 5 with
  | none => simp only [parse_poscar, h5] at h; exact Except.noConfusion h
  | some l5 =>
    cases h6 : lines.get? 6 with
    | none => simp only [parse_poscar, h5, h6] at h; exact Except.noConfusion h
    | some l6 =>
      cases hc : mapOpt pyInt? (pySplit l6) with
      | none => simp only [parse_poscar, h5, h6, hc] at h; exact Except.noConfusion h
      | some counts =>
        cases hm : firstMarkerIdx lines with
        | none => simp only [parse_poscar, h5, h6, hc, hm] at h; exact Except.noConfusion h
        | some ci =>
          cases hr : readPositions lines (ci + 1) counts.sum.toNat with
          | error e => simp only [parse_poscar, h5, h6, hc, hm, hr] at h; exact Except.noConfusion h
          | ok atomic =>
            simp only [parse_poscar, h5, h6, hc, hm, hr] at h
            cases h
            exact ⟨l5, l6, counts, ci, atomic, rfl, rfl, hc, rfl, hr, rfl⟩

theorem parse_poscar_eq_ok (lines : List Str) (l5 l6 : Str) (counts : List Int) (ci : Nat)
    (atomic : List Coord)
    (h5 : lines.get? 5 = some l5) (h6 : lines.get? 6 = some l6)
    (hc : mapOpt pyInt? (pySplit l6) = some counts)
    (hm : firstMarkerIdx lines = some ci)
    (hr : readPositions lines (ci + 1) counts.sum.toNat = .ok atomic) :
    parse_poscar lines = .ok ⟨lines, pySplit l5, counts, pyStrip (lines.getD ci []),
      buildDict ((pySplit l5).zip counts) atomic 0 []⟩ := by
  simp only [parse_poscar, h5, h6, hc, hm, hr]

theorem readPositions_error_elim (lines : List Str) :
    ∀ (n : Nat) (start : Nat) (e : Err),
      readPositions lines start n = .error e → e = .FormatError := by
  intro n
  induction n with
  | zero =>
    intro start e h
    simp only [readPositions] at h
    exact Except.noConfusion h
  | succ n ih =>
    intro start e h
    cases hl : lines.get? start with
    | none =>
      simp only [readPositions, hl] at h
      cases h
      rfl
    | some l =>
      cases hp : parseCoordLine l with
      | none =>
        simp only [readPositions, hl, hp] at h
        cases h
        rfl
      | some p =>
        cases hr : readPositions lines (start + 1) n with
        | error e' =>
          simp only [readPositions, hl, hp, hr] at h
          cases h
          exact ih (start + 1) _ hr
        | ok ps' => simp only [readPositions, hl, hp, hr] at h; exact Except.noConfusion h

theorem parse_poscar_error_elim (lines : List Str) (e : Err)
    (h : parse_poscar lines = .error e) : e = .FormatError := by
  cases h5 : lines.get? 5 with
  | none =>
    simp only [parse_poscar, h5] at h
    cases h
    rfl
  | some l5 =>
    cases h6 : lines.get? 6 with
    | none =>
      simp only [parse_poscar, h5, h6] at h
      cases h
      rfl
    | some l6 =>
      cases hc : mapOpt pyInt? (pySplit l6) with
      | none =>
        simp only [parse_poscar, h5, h6, hc] at h
        cases h
        rfl
      | some counts =>
        cases hm : firstMarkerIdx lines with
        | none =>
          simp only [parse_poscar, h5, h6, hc, hm] at h
          cases h
          rfl
        | some ci =>
          cases hr : readPositions lines (ci + 1) counts.sum.toNat with
          | error e' =>
            simp only [parse_poscar, h5, h6, hc, hm, hr] at h
            cases h
            exact readPositions_error_elim lines _ _ _ hr
          | ok atomic => simp only [parse_poscar, h5, h6, hc, hm, hr] at h; exact Except.noConfusion h

/-! ### Slices and the per-element partition -/

theorem buildDict_eq (pairs : List (Str × Int)) :
    ∀ (poss : List Coord) (idx : Int) (d0 : Dict),
      (∀ a ∈ pairs.map Prod.fst, dictGet? d0 a = none) →
      (pairs.map Prod.fst).Nodup →
      buildDict pairs poss idx d0 = d0 ++ sliceList pairs poss idx := by
  induction pairs with
  | nil => intro poss idx d0 _ _; simp [buildDict, sliceList]
  | cons pc rest ih =>
    intro poss idx d0 habs hnd
    obtain ⟨a, c⟩ := pc
    rw [buildDict, sliceList]
    rw [dictSet_of_absent d0 a _ (habs a (by simp))]
    rw [ih poss (idx + c) _ ?habs' ?hnd']
    · simp
    case habs' =>
      intro b hb
      have hbne : b ≠ a := by
        simp only [List.map_cons, List.nodup_cons] at hnd
        intro hcon
        exact hnd.1 (hcon ▸ hb)
      rw [dictGet?_append_right _ _ _ (habs b (by simp [hb]))]
      simp [dictGet?, hbne.symm]
    case hnd' =>
      simp only [List.map_cons, List.nodup_cons] at hnd
      exact hnd.2

theorem pySlice_length (l : List Coord) (i j : Int) (hi : 0 ≤ i) (hij : i ≤ j)
    (hj : j ≤ l.length) : (pySlice l i j).length = (j - i).toNat := by
  unfold pySlice pyIdx
  rw [if_neg (by omega : ¬ i < 0), if_neg (by omega : ¬ j < 0)]
  simp only [Nat.min_def]
  rw [if_pos (by omega : j.toNat ≤ l.length), if_pos (by omega : i.toNat ≤ l.length)]
  rw [List.length_drop, List.length_take]
  rw [min_eq_left (by omega : j.toNat ≤ l.length)]
  omega

theorem pySlice_append (pre l suf : List Coord) :
    pySlice (pre ++ l ++ suf) (pre.length : Int) ((pre.length : Int) + (l.length : Int)) = l := by
  unfold pySlice pyIdx
  rw [if_neg (by omega : ¬ (pre.length : Int) < 0),
    if_neg (by omega : ¬ (pre.length : Int) + (l.length : Int) < 0)]
  have hlen : (pre ++ l ++ suf).length = pre.length + l.length + suf.length := by
    simp only [List.length_append]
  have h1 : ((pre.length : Int)).toNat = pre.length := by omega
  have h2 : ((pre.length : Int) + (l.length : Int)).toNat = pre.length + l.length := by omega
  rw [h1, h2, hlen]
  simp only [Nat.min_def]
  rw [if_pos (by omega : pre.length + l.length ≤ pre.length + l.length + suf.length)]
  rw [if_pos (by omega : pre.length ≤ pre.length + l.length + suf.length)]
  have htake : (pre ++ l ++ suf).take (pre.length + l.length) = pre ++ l := by
    have hx : pre.length + l.length = (pre ++ l).length := by simp
    rw [hx]
    exact List.take_left (pre ++ l) suf
  rw [htake]
  exact List.drop_left pre l

theorem sliceList_get (pairs : List (Str × Int)) :
    ∀ (poss : List Coord) (idx : Int),
      (pairs.map Prod.fst).Nodup →
      (∀ pc ∈ pairs, 0 ≤ pc.2) →
      0 ≤ idx → idx + (pairs.map Prod.snd).sum ≤ (poss.length : Int) →
      ∀ (i : Nat) (a : Str) (c : Int), pairs.get? i = some (a, c) →
        ∃ l, dictGet? (sliceList pairs poss idx) a = some l ∧ (l.length : Int) = c := by
  induction pairs with
  | nil => intro poss idx _ _ _ _ i a c h; simp at h
  | cons pc rest ih =>
    intro poss idx hnd hnn hidx hbound i a c hget
    obtain ⟨a0, c0⟩ := pc
    have hc0 : 0 ≤ c0 := hnn (a0, c0) (by simp)
    have hsumrest : 0 ≤ (rest.map Prod.snd).sum :=
      List.sum_nonneg (by
        intro x hx
        simp only [List.mem_map] at hx
        obtain ⟨pc', hpc', rfl⟩ := hx
        exact hnn pc' (by simp [hpc']))
    have hsum : (((a0, c0) :: rest).map Prod.snd).sum = c0 + (rest.map Prod.snd).sum := by
      simp
    cases i with
    | zero =>
      simp only [List.get?] at hget
      cases hget
      refine ⟨pySlice poss idx (idx + c), by simp [sliceList, dictGet?], ?_⟩
      rw [pySlice_length poss idx (idx + c) hidx (by omega) (by omega)]
      omega
    | succ j =>
      simp only [List.get?] at hget
      have hmem : (a, c) ∈ rest := by
        have := List.get?_mem hget
        exact this
      have hane : a0 ≠ a := by
        simp only [List.map_cons, List.nodup_cons] at hnd
        intro hcon
        exact hnd.1 (hcon ▸ List.mem_map_of_mem Prod.fst hmem)
      rw [sliceList]
      simp only [dictGet?, if_neg hane]
      refine ih poss (idx + c0) ?_ ?_ (by omega) (by omega) j a c hget
      · simp only [List.map_cons, List.nodup_cons] at hnd
        exact hnd.2
      · intro pc' hpc'
        exact hnn pc' (by simp [hpc'])

theorem sliceList_of_concat :
    ∀ (entries : Dict) (pre : List Coord),
      sliceList (entries.map (fun p => (p.1, (p.2.length : Int))))
        (pre ++ (entries.map Prod.snd).flatten) (pre.length : Int) = entries := by
  intro entries
  induction entries with
  | nil => intro pre; rfl
  | cons p rest ih =>
    intro pre
    obtain ⟨k, v⟩ := p
    simp only [List.map_cons, sliceList, List.flatten_cons]
    have hassoc : pre ++ (v ++ (rest.map Prod.snd).flatten) =
        pre ++ v ++ (rest.map Prod.snd).flatten := by simp
    have hslice : pySlice (pre ++ (v ++ (rest.map Prod.snd).flatten)) (pre.length : Int)
        ((pre.length : Int) + (v.length : Int)) = v := by
      rw [hassoc]
      exact pySlice_append pre v _
    have hrec : sliceList (rest.map (fun p => (p.1, (p.2.length : Int))))
        (pre ++ (v ++ (rest.map Prod.snd).flatten))
        ((pre.length : Int) + (v.length : Int)) = rest := by
      have hih := ih (pre ++ v)
      rw [List.length_append] at hih
      push_cast at hih
      rw [List.append_assoc] at hih
      exact hih
    rw [hslice, hrec]

/-! ### Dictionary structure lemmas -/

theorem dictSet_keys_of_present (d : Dict) (k : Str) (v : List Coord)
    (h : (dictGet? d k).isSome) :
    (dictSet d k v).map Prod.fst = d.map Prod.fst := by
  induction d with
  | nil => simp [dictGet?] at h
  | cons p rest ih =>
    simp only [dictSet]
    by_cases hp : p.1 = k
    · rw [if_pos hp]
      simp [hp]
    · rw [if_neg hp]
      simp only [dictGet?, hp, ite_false] at h
      simp only [List.map_cons]
      rw [ih (by simpa [dictGet?, hp] using h)]

theorem dict_eq_keys_lookup (d : Dict) :
    ∀ ks : List Str, d.map Prod.fst = ks → ks.Nodup →
      d = ks.map (fun k => (k, (dictGet? d k).getD [])) := by
  induction d with
  | nil =>
    intro ks h _
    simp only [List.map_nil] at h
    rw [← h]
    rfl
  | cons p rest ih =>
    intro ks h hnd
    obtain ⟨k0, v0⟩ := p
    cases ks with
    | nil => simp at h
    | cons k0' ks' =>
      simp only [List.map_cons, List.cons.injEq] at h
      obtain ⟨rfl, hrest⟩ := h
      simp only [List.nodup_cons] at hnd
      simp only [List.map_cons, List.cons.injEq]
      refine ⟨?_, ?_⟩
      · simp [dictGet?]
      · have hmapeq : ks'.map (fun k => (k, (dictGet? ((k0, v0) :: rest) k).getD [])) =
            ks'.map (fun k => (k, (dictGet? rest k).getD [])) := by
          apply List.map_congr_left
          intro k hk
          have hne : ¬ (k0 = k) := fun hc => hnd.1 (hc ▸ hk)
          simp [dictGet?, hne]
        rw [hmapeq]
        exact ih ks' hrest hnd.2

theorem flatten_positions_foldl (ts : List Str) (d : Dict) :
    ∀ acc : List Coord, ts.foldl (fun acc a => acc ++ (dictGet? d a).getD []) acc =
      acc ++ (ts.map (fun a => (dictGet? d a).getD [])).flatten := by
  induction ts with
  | nil => intro acc; simp
  | cons t ts' ih =>
    intro acc
    simp only [List.foldl_cons, List.map_cons, List.flatten_cons]
    rw [ih]
    simp

theorem flatten_positions_eq (ts : List Str) (d : Dict) :
    flatten_positions ts d = (ts.map (fun a => (dictGet? d a).getD [])).flatten := by
  have := flatten_positions_foldl ts d []
  simpa [flatten_positions] using this

/-! ### Small list helpers -/

theorem sum_set_int (l : List Int) :
    ∀ (i : Nat) (c x : Int), l.get? i = some c → (l.set i x).sum = l.sum - c + x := by
  induction l with
  | nil => intro i c x h; simp at h
  | cons y rest ih =>
    intro i c x h
    cases i with
    | zero =>
      simp only [List.get?] at h
      cases h
      simp [List.set]
      ring
    | succ j =>
      simp only [List.get?] at h
      simp only [List.set, List.sum_cons, ih j c x h]
      ring

theorem findIdx_eq_of_mem (l : List Str) (a : Str) (h : a ∈ l) :
    l.findIdx (· == a) < l.length ∧ l.get? (l.findIdx (· == a)) = some a := by
  induction l with
  | nil => simp at h
  | cons x rest ih =>
    rw [List.findIdx_cons]
    by_cases hx : x = a
    · subst hx
      simp
    · have hbeq : (x == a) = false := by simp [hx]
      rw [hbeq]
      simp only [cond_false]
      have hmem : a ∈ rest := by
        rcases List.mem_cons.mp h with rfl | hm
        · exact absurd rfl hx
        · exact hm
      obtain ⟨h1, h2⟩ := ih hmem
      refine ⟨by simpa using Nat.succ_lt_succ h1, ?_⟩
      simpa using h2

/-! ### Characterizing the substitution engine -/

theorem substituteCore_ok_elim (pd : ParsedData) (substitution site : Str) (tgt : Option Coord)
    (r : SubResult) (h : substituteCore pd substitution site tgt = .ok r) :
    site ∈ pd.atom_types ∧
    ∃ l sp c0,
      dictGet? pd.element_positions site = some l ∧
      find_closest_position l (tgt.getD defaultTarget) = .ok sp ∧
      pd.atom_counts.get? (pd.atom_types.findIdx (· == site)) = some c0 ∧
      r.substituted_position = sp ∧
      ((substitution ∈ pd.atom_types ∧ ∃ c1,
          (pd.atom_counts.set (pd.atom_types.findIdx (· == site)) (c0 - 1)).get?
            (pd.atom_types.findIdx (· == substitution)) = some c1 ∧
          ((substitution ≠ "Va".data ∧ ∃ lsub,
              dictGet? (dictSet pd.element_positions site (l.erase sp)) substitution =
                some lsub ∧
              r = ⟨pd.atom_types,
                   ((pd.atom_counts.set (pd.atom_types.findIdx (· == site)) (c0 - 1)).set
                     (pd.atom_types.findIdx (· == substitution)) (c1 + 1)),
                   dictSet (dictSet pd.element_positions site (l.erase sp)) substitution
                     (lsub ++ [sp]), sp⟩) ∨
           (substitution = "Va".data ∧
              r = ⟨pd.atom_types,
                   ((pd.atom_counts.set (pd.atom_types.findIdx (· == site)) (c0 - 1)).set
                     (pd.atom_types.findIdx (· == substitution)) (c1 + 1)),
                   dictSet pd.element_positions site (l.erase sp), sp⟩))) ∨
       (substitution ∉ pd.atom_types ∧ substitution = "Va".data ∧
          r = ⟨pd.atom_types,
               pd.atom_counts.set (pd.atom_types.findIdx (· == site)) (c0 - 1),
               dictSet pd.element_positions site (l.erase sp), sp⟩) ∨
       (substitution ∉ pd.atom_types ∧ substitution ≠ "Va".data ∧
          r = ⟨pd.atom_types ++ [substitution],
               (pd.atom_counts.set (pd.atom_types.findIdx (· == site)) (c0 - 1)) ++ [1],
               dictSet (dictSet (dictSet pd.element_positions site (l.erase sp))
                 substitution []) substitution ([] ++ [sp]), sp⟩)) := by
  by_cases hsite : site ∈ pd.atom_types
  · refine ⟨hsite, ?_⟩
    cases hlook : dictGet? pd.element_positions site with
    | none =>
      simp only [substituteCore, if_pos hsite, hlook] at h
      exact Except.noConfusion h
    | some l =>
      cases hfc : find_closest_position l (tgt.getD defaultTarget) with
      | error e =>
        simp only [substituteCore, if_pos hsite, hlook, hfc] at h
        exact Except.noConfusion h
      | ok sp =>
        cases hc0 : pd.atom_counts.get? (pd.atom_types.findIdx (· == site)) with
        | none =>
          simp only [substituteCore, if_pos hsite, hlook, hfc, hc0] at h
          exact Except.noConfusion h
        | some c0 =>
          by_cases hsub : substitution ∈ pd.atom_types
          · cases hc1 : (pd.atom_counts.set (pd.atom_types.findIdx (· == site)) (c0 - 1)).get?
                (pd.atom_types.findIdx (· == substitution)) with
            | none =>
              simp only [substituteCore, if_pos hsite, hlook, hfc, hc0, if_pos hsub, hc1] at h
              exact Except.noConfusion h
            | some c1 =>
              by_cases hva : substitution = "Va".data
              · simp only [substituteCore, if_pos hsite, hlook, hfc, hc0, if_pos hsub, hc1,
                  if_neg (fun hne : substitution ≠ "Va".data => hne hva)] at h
                cases h
                exact ⟨l, sp, c0, rfl, hfc, rfl, rfl,
                  Or.inl ⟨hsub, c1, hc1, Or.inr ⟨hva, rfl⟩⟩⟩
              · cases hlsub : dictGet? (dictSet pd.element_positions site (l.erase sp))
                    substitution with
                | none =>
                  simp only [substituteCore, if_pos hsite, hlook, hfc, hc0, if_pos hsub, hc1,
                    if_pos hva, hlsub] at h
                  exact Except.noConfusion h
                | some lsub =>
                  simp only [substituteCore, if_pos hsite, hlook, hfc, hc0, if_pos hsub, hc1,
                    if_pos hva, hlsub] at h
                  cases h
                  exact ⟨l, sp, c0, rfl, hfc, rfl, rfl,
                    Or.inl ⟨hsub, c1, hc1, Or.inl ⟨hva, lsub, hlsub, rfl⟩⟩⟩
          · by_cases hva : substitution = "Va".data
            · simp only [substituteCore, if_pos hsite, hlook, hfc, hc0, if_neg hsub,
                if_pos hva, if_neg (fun hne : substitution ≠ "Va".data => hne hva)] at h
              cases h
              exact ⟨l, sp, c0, rfl, hfc, rfl, rfl, Or.inr (Or.inl ⟨hsub, hva, rfl⟩)⟩
            · have hlsub : dictGet? (dictSet (dictSet pd.element_positions site (l.erase sp))
                  substitution []) substitution = some [] := dictGet?_dictSet_self _ _ _
              simp only [substituteCore, if_pos hsite, hlook, hfc, hc0, if_neg hsub,
                if_neg hva, if_pos hva, hlsub] at h
              cases h
              exact ⟨l, sp, c0, rfl, hfc, rfl, rfl, Or.inr (Or.inr ⟨hsub, hva, rfl⟩)⟩
  · simp only [substituteCore, if_neg hsite] at h
    exact Except.noConfusion h

/-! ### Characterizing the serializer -/

theorem fmtPosLine_of_len3 (p : Coord) (h : 3 ≤ p.length) : fmtPosLine p = .ok (fmtLine3 p) := by
  match p, h with
  | a :: b :: c :: rest, _ => rfl

theorem fmtPosLine_ok_len (p : Coord) (s : Str) (h : fmtPosLine p = .ok s) : 3 ≤ p.length := by
  by_contra hc
  have h2 : p.get? 2 = none := List.get?_eq_none.mpr (by omega)
  match p, h2 with
  | [], _ => exact Except.noConfusion h
  | [a], _ => exact Except.noConfusion h
  | [a, b], _ => exact Except.noConfusion h
  | a :: b :: c :: rest, h2 => simp at h2

theorem serializeOut_eq (pd : ParsedData) (r : SubResult) (substitution site : Str)
    (h3 : ∀ p ∈ flatten_positions r.atom_types r.positions, 3 ≤ p.length) :
    serializeOut pd r substitution site = .ok (
      setHead (pySlice pd.lines 0 5
        ++ ["  ".data ++ joinSep "  ".data r.atom_types ++ ['\n'],
            "  ".data ++ joinSep "  ".data (r.atom_counts.map intToStr) ++ ['\n'],
            pd.coord_type ++ ['\n']]
        ++ (flatten_positions r.atom_types r.positions).map fmtLine3)
        (substitution ++ '_' :: site ++ " defect ".data
          ++ joinSep [' '] (r.substituted_position.map fmt16) ++ ['\n']),
      substitution ++ '_' :: site ++ "_POSCAR".data) := by
  have hmap := mapExcept_eq_ok_of_forall fmtPosLine fmtLine3 _
    (fun p hp => fmtPosLine_of_len3 p (h3 p hp))
  simp only [serializeOut, hmap]

theorem serializeOut_ok_elim (pd : ParsedData) (r : SubResult) (substitution site : Str)
    (nl : List Str) (fn : Str) (h : serializeOut pd r substitution site = .ok (nl, fn)) :
    (∀ p ∈ flatten_positions r.atom_types r.positions, 3 ≤ p.length) ∧
    nl = setHead (pySlice pd.lines 0 5
        ++ ["  ".data ++ joinSep "  ".data r.atom_types ++ ['\n'],
            "  ".data ++ joinSep "  ".data (r.atom_counts.map intToStr) ++ ['\n'],
            pd.coord_type ++ ['\n']]
        ++ (flatten_positions r.atom_types r.positions).map fmtLine3)
        (substitution ++ '_' :: site ++ " defect ".data
          ++ joinSep [' '] (r.substituted_position.map fmt16) ++ ['\n']) ∧
    fn = substitution ++ '_' :: site ++ "_POSCAR".data := by
  have h3 : ∀ p ∈ flatten_positions r.atom_types r.positions, 3 ≤ p.length := by
    intro p hp
    cases hmx : mapExcept fmtPosLine (flatten_positions r.atom_types r.positions) with
    | error e =>
      simp only [serializeOut, hmx] at h
      exact Except.noConfusion h
    | ok posLines =>
      obtain ⟨s, hs⟩ := mapExcept_ok_elim fmtPosLine _ posLines hmx p hp
      exact fmtPosLine_ok_len p s hs
  have := serializeOut_eq pd r substitution site h3
  rw [this] at h
  cases h
  exact ⟨h3, rfl, rfl⟩

theorem substitute_ok_elim (pd : ParsedData) (substitution site : Str) (tgt : Option Coord)
    (nl : List Str) (fn : Str) (h : substitute pd substitution site tgt = .ok (nl, fn)) :
    ∃ r, substituteCore pd substitution site tgt = .ok r ∧
      serializeOut pd r substitution site = .ok (nl, fn) := by
  cases hc : substituteCore pd substitution site tgt with
  | error e =>
    simp only [substitute, hc] at h
    exact Except.noConfusion h
  | ok r =>
    simp only [substitute, hc] at h
    exact ⟨r, rfl, h⟩

theorem substitute_eq_of (pd : ParsedData) (substitution site : Str) (tgt : Option Coord)
    (r : SubResult) (out : List Str × Str)
    (h1 : substituteCore pd substitution site tgt = .ok r)
    (h2 : serializeOut pd r substitution site = .ok out) :
    substitute pd substitution site tgt = .ok out := by
  simp only [substitute, h1, h2]

/-! ### Well-formedness of a parsed structure -/

theorem dictGet?_mem (d : Dict) (k : Str) (v : List Coord) (h : dictGet? d k = some v) :
    (k, v) ∈ d := by
  induction d with
  | nil => simp [dictGet?] at h
  | cons q rest ih =>
    obtain ⟨k', v'⟩ := q
    simp only [dictGet?] at h
    by_cases hp : k' = k
    · rw [if_pos hp] at h
      cases h
      subst hp
      exact List.mem_cons_self _ _
    · rw [if_neg hp] at h
      exact List.mem_cons_of_mem _ (ih h)

theorem dictSet_coords_3 (d : Dict) (hd : ∀ e ∈ d, ∀ p ∈ e.2, p.length = 3) (k : Str)
    (v : List Coord) (hv : ∀ p ∈ v, p.length = 3) :
    ∀ e ∈ dictSet d k v, ∀ p ∈ e.2, p.length = 3 := by
  induction d with
  | nil =>
    intro e he
    simp only [dictSet, List.mem_singleton] at he
    subst he
    exact hv
  | cons q rest ih =>
    obtain ⟨k', v'⟩ := q
    intro e he
    simp only [dictSet] at he
    by_cases hq : k' = k
    · rw [if_pos hq] at he
      rcases List.mem_cons.mp he with rfl | he'
      · exact hv
      · exact hd e (List.mem_cons_of_mem _ he')
    · rw [if_neg hq] at he
      rcases List.mem_cons.mp he with rfl | he'
      · exact hd (k', v') (by simp)
      · exact ih (fun e2 he2 => hd e2 (List.mem_cons_of_mem _ he2)) e he'

theorem flatten_coords_3 (ts : List Str) (d : Dict)
    (hd : ∀ e ∈ d, ∀ p ∈ e.2, p.length = 3) :
    ∀ p ∈ flatten_positions ts d, p.length = 3 := by
  intro p hp
  rw [flatten_positions_eq] at hp
  rw [List.mem_flatten] at hp
  obtain ⟨l, hl, hpl⟩ := hp
  rw [List.mem_map] at hl
  obtain ⟨t, _, rfl⟩ := hl
  cases hlook : dictGet? d t with
  | none => rw [hlook] at hpl; simp at hpl
  | some v =>
    rw [hlook] at hpl
    simp only [Option.getD_some] at hpl
    exact hd (t, v) (dictGet?_mem d t v hlook) p hpl

/-! ### Success of the engine on well-formed structures -/

theorem foldl_choice_mem {α : Type _} (C : α → α → Bool) :
    ∀ (rest : List α) (p : α),
      rest.foldl (fun best q => if C q best then q else best) p ∈ p :: rest := by
  intro rest
  induction rest with
  | nil => intro p; simp
  | cons q rs ih =>
    intro p
    rw [List.foldl_cons]
    have := ih (if C q p then q else p)
    rcases List.mem_cons.mp this with heq | hmem
    · rw [heq]
      by_cases hC : C q p = true
      · rw [if_pos hC]; simp
      · rw [if_neg hC]; simp
    · simp only [List.mem_cons]
      right
      right
      exact hmem

theorem find_closest_mem (l : List Coord) (t sp : Coord)
    (h : find_closest_position l t = .ok sp) : sp ∈ l := by
  cases l with
  | nil => exact Except.noConfusion h
  | cons p rest =>
    simp only [find_closest_position, Except.ok.injEq] at h
    rw [← h]
    exact foldl_choice_mem _ rest p

theorem find_closest_ok (l : List Coord) (t : Coord) (hl : l ≠ []) :
    ∃ sp, find_closest_position l t = .ok sp := by
  cases l with
  | nil => exact absurd rfl hl
  | cons p rest => exact ⟨_, rfl⟩

theorem substituteCore_success (pd : ParsedData) (substitution site : Str) (tgt : Option Coord)
    (hlens : pd.atom_counts.length = pd.atom_types.length)
    (hpres : ∀ t ∈ pd.atom_types, (dictGet? pd.element_positions t).isSome)
    (hsite : site ∈ pd.atom_types)
    (l : List Coord) (hlook : dictGet? pd.element_positions site = some l) (hl : l ≠ []) :
    ∃ r, substituteCore pd substitution site tgt = .ok r := by
  obtain ⟨sp, hfc⟩ := find_closest_ok l (tgt.getD defaultTarget) hl
  have hsilt : pd.atom_types.findIdx (· == site) < pd.atom_counts.length := by
    rw [hlens]
    exact (findIdx_eq_of_mem pd.atom_types site hsite).1
  cases hc0 : pd.atom_counts.get? (pd.atom_types.findIdx (· == site)) with
  | none =>
    rw [List.get?_eq_none] at hc0
    omega
  | some c0 =>
    by_cases hsub : substitution ∈ pd.atom_types
    · have hsublt : pd.atom_types.findIdx (· == substitution) <
          (pd.atom_counts.set (pd.atom_types.findIdx (· == site)) (c0 - 1)).length := by
        rw [List.length_set, hlens]
        exact (findIdx_eq_of_mem pd.atom_types substitution hsub).1
      cases hc1 : (pd.atom_counts.set (pd.atom_types.findIdx (· == site)) (c0 - 1)).get?
          (pd.atom_types.findIdx (· == substitution)) with
      | none =>
        rw [List.get?_eq_none] at hc1
        omega
      | some c1 =>
        by_cases hva : substitution = "Va".data
        · exact ⟨_, by
            simp only [substituteCore, if_pos hsite, hlook, hfc, hc0, if_pos hsub, hc1,
              if_neg (fun hne : substitution ≠ "Va".data => hne hva)]
            rfl⟩
        · have hlsub : (dictGet? (dictSet pd.element_positions site (l.erase sp))
              substitution).isSome := by
            by_cases hss : substitution = site
            · subst hss
              rw [dictGet?_dictSet_self]
              rfl
            · rw [dictGet?_dictSet_ne _ _ _ _ hss]
              exact hpres substitution hsub
          cases hlsub2 : dictGet? (dictSet pd.element_positions site (l.erase sp))
              substitution with
          | none => rw [hlsub2] at hlsub; simp at hlsub
          | some lsub =>
            exact ⟨_, by
              simp only [substituteCore, if_pos hsite, hlook, hfc, hc0, if_pos hsub, hc1,
                if_pos hva, hlsub2]
              rfl⟩
    · by_cases hva : substitution = "Va".data
      · exact ⟨_, by
          simp only [substituteCore, if_pos hsite, hlook, hfc, hc0, if_neg hsub, if_pos hva,
            if_neg (fun hne : substitution ≠ "Va".data => hne hva)]
          rfl⟩
      · have hlsub : dictGet? (dictSet (dictSet pd.element_positions site (l.erase sp))
            substitution []) substitution = some [] := dictGet?_dictSet_self _ _ _
        exact ⟨_, by
          simp only [substituteCore, if_pos hsite, hlook, hfc, hc0, if_neg hsub, if_neg hva,
            if_pos hva, hlsub]
          rfl⟩

theorem substitute_success (pd : ParsedData) (substitution site : Str) (tgt : Option Coord)
    (hwf : StructureWF pd) (hsite : site ∈ pd.atom_types)
    (l : List Coord) (hlook : dictGet? pd.element_positions site = some l) (hl : l ≠ []) :
    ∃ out, substitute pd substitution site tgt = .ok out := by
  obtain ⟨hnd, hpres, hcounts, hcoords⟩ := hwf
  have hlens : pd.atom_counts.length = pd.atom_types.length := by
    rw [hcounts, List.length_map]
  obtain ⟨r, hr⟩ := substituteCore_success pd substitution site tgt hlens hpres hsite l hlook hl
  obtain ⟨_, l', sp, c0, hlook', hfc, _, _, hbranch⟩ :=
    substituteCore_ok_elim pd substitution site tgt r hr
  have hll : l' = l := by
    rw [hlook] at hlook'
    exact (Option.some.injEq _ _).mp hlook'.symm ▸ rfl
  subst hll
  have hspl : sp ∈ l' := find_closest_mem _ _ _ hfc
  have hsp3 : sp.length = 3 := hcoords (site, l') (dictGet?_mem _ _ _ hlook) sp hspl
  have herase3 : ∀ p ∈ l'.erase sp, p.length = 3 := fun p hp =>
    hcoords (site, l') (dictGet?_mem _ _ _ hlook) p (List.erase_subset _ _ hp)
  have hd1 : ∀ e ∈ dictSet pd.element_positions site (l'.erase sp), ∀ p ∈ e.2, p.length = 3 :=
    dictSet_coords_3 _ hcoords _ _ herase3
  have hrpos : ∀ e ∈ r.positions, ∀ p ∈ e.2, p.length = 3 := by
    rcases hbranch with ⟨_, c1, _, hAB⟩ | ⟨_, _, hC⟩ | ⟨_, _, hD⟩
    · rcases hAB with ⟨_, lsub, hlsub, hA⟩ | ⟨_, hB⟩
      · rw [hA]
        exact dictSet_coords_3 _ hd1 _ _ (by
          intro p hp
          rcases List.mem_append.mp hp with hp' | hp'
          · exact hd1 (substitution, lsub) (dictGet?_mem _ _ _ hlsub) p hp'
          · rcases List.mem_singleton.mp hp' with rfl
            exact hsp3)
      · rw [hB]
        exact hd1
    · rw [hC]
      exact hd1
    · rw [hD]
      refine dictSet_coords_3 _ (dictSet_coords_3 _ hd1 _ _ (by simp)) _ _ ?_
      intro p hp
      rcases List.mem_singleton.mp (by simpa using hp) with rfl
      exact hsp3
  have h3 : ∀ p ∈ flatten_positions r.atom_types r.positions, 3 ≤ p.length := by
    intro p hp
    rw [flatten_coords_3 r.atom_types r.positions hrpos p hp]
  exact ⟨_, substitute_eq_of _ _ _ _ _ _ hr (serializeOut_eq pd r substitution site h3)⟩

/-! ### The count / position-list consistency invariant -/

theorem parse_consistency (lines : List Str) (pd : ParsedData)
    (h : parse_poscar lines = .ok pd)
    (hnd : pd.atom_types.Nodup)
    (hlen : pd.atom_counts.length = pd.atom_types.length)
    (hnn : ∀ c ∈ pd.atom_counts, 0 ≤ c) :
    ∀ (i : Nat) (t : Str), pd.atom_types.get? i = some t →
      ∃ l, dictGet? pd.element_positions t = some l ∧
        pd.atom_counts.get? i = some ((l.length : Int)) := by
  obtain ⟨l5, l6, counts, ci, atomic, h5, h6, hc, hm, hr, hpd⟩ := parse_poscar_ok_elim _ _ h
  subst hpd
  dsimp only at hnd hlen hnn ⊢
  have hkeys : ((pySplit l5).zip counts).map Prod.fst = pySplit l5 :=
    List.map_fst_zip _ _ (le_of_eq hlen.symm)
  have hsnd : ((pySplit l5).zip counts).map Prod.snd = counts :=
    List.map_snd_zip _ _ (le_of_eq hlen)
  have heps2 : buildDict ((pySplit l5).zip counts) atomic 0 [] =
      sliceList ((pySplit l5).zip counts) atomic 0 := by
    rw [buildDict_eq _ atomic 0 [] (fun a _ => rfl) (by rw [hkeys]; exact hnd)]
    rfl
  have hlenatomic : atomic.length = counts.sum.toNat := readPositions_ok_length lines _ _ _ hr
  have hsum0 : 0 ≤ counts.sum := List.sum_nonneg hnn
  intro i t ht
  have hi : i < (pySplit l5).length := by
    by_contra hcon
    rw [List.get?_eq_none.mpr (by omega)] at ht
    exact Option.noConfusion ht
  obtain ⟨c, hcget⟩ : ∃ c, counts.get? i = some c := by
    cases hcg : counts.get? i with
    | none => rw [List.get?_eq_none] at hcg; omega
    | some c => exact ⟨c, rfl⟩
  have hzip : ((pySplit l5).zip counts).get? i = some (t, c) := by
    rw [List.get?_eq_getElem?, List.getElem?_zip_eq_some]
    exact ⟨by rw [← List.get?_eq_getElem?]; exact ht,
           by rw [← List.get?_eq_getElem?]; exact hcget⟩
  obtain ⟨l, hl, hlc⟩ := sliceList_get ((pySplit l5).zip counts) atomic 0
    (by rw [hkeys]; exact hnd)
    (by
      intro pc hpc
      have : pc.2 ∈ ((pySplit l5).zip counts).map Prod.snd := List.mem_map_of_mem Prod.snd hpc
      rw [hsnd] at this
      exact hnn _ this)
    le_rfl
    (by rw [hsnd]; omega)
    i t c hzip
  refine ⟨l, ?_, ?_⟩
  · rw [heps2]
    exact hl
  · rw [hcget, ← hlc]

theorem get?_some_lt {α : Type _} (l : List α) (i : Nat) (a : α) (h : l.get? i = some a) :
    i < l.length := by
  by_contra hc
  rw [List.get?_eq_none.mpr (by omega)] at h
  exact Option.noConfusion h

theorem nodup_idx_eq (types : List Str) (hnd : types.Nodup) (i j : Nat) (t : Str)
    (hi : types.get? i = some t) (hj : types.get? j = some t) : i = j :=
  List.get?_inj (get?_some_lt _ _ _ hi) hnd (hi.trans hj.symm)

theorem counts_get_of_map (types : List Str) (counts : List Int) (f : Str → Int)
    (hcounts : counts = types.map f) (j : Nat) (t : Str) (ht : types.get? j = some t) :
    counts.get? j = some (f t) := by
  rw [hcounts, List.get?_map, ht]
  rfl

theorem get?_set' (l : List Int) (i j : Nat) (a : Int) :
    (l.set i a).get? j =
      if i = j then (if i < l.length then some a else none) else l.get? j := by
  simp [List.get?_eq_getElem?, List.getElem?_set]

theorem map_set_of_nodup (types : List Str) (hnd : types.Nodup) (ft f1 : Str → Int)
    (site : Str) (si : Nat) (hsig : types.get? si = some site)
    (hval : ∀ t ∈ types, t ≠ site → f1 t = ft t) :
    (types.map ft).set si (f1 site) = types.map f1 := by
  apply List.ext_get?
  intro j
  rw [get?_set', List.get?_map, List.get?_map]
  by_cases hij : si = j
  · subst hij
    rw [if_pos rfl, if_pos (by rw [List.length_map]; exact get?_some_lt _ _ _ hsig), hsig]
    rfl
  · rw [if_neg hij]
    cases htj : types.get? j with
    | none => rfl
    | some t =>
      simp only [Option.map]
      congr 1
      refine (hval t (List.get?_mem htj) ?_).symm
      intro hts
      subst hts
      exact hij (nodup_idx_eq types hnd si j t hsig htj)

theorem substituteCore_coords3 (pd : ParsedData) (sub site : Str) (tgt : Option Coord)
    (r : SubResult) (hcoords : ∀ e ∈ pd.element_positions, ∀ p ∈ e.2, p.length = 3)
    (h : substituteCore pd sub site tgt = .ok r) :
    ∀ e ∈ r.positions, ∀ p ∈ e.2, p.length = 3 := by
  obtain ⟨hsite, l, sp, c0, hlook, hfc, hc0, hsp, hbranch⟩ :=
    substituteCore_ok_elim pd sub site tgt r h
  have hspl : sp ∈ l := find_closest_mem _ _ _ hfc
  have hsp3 : sp.length = 3 := hcoords (site, l) (dictGet?_mem _ _ _ hlook) sp hspl
  have herase3 : ∀ p ∈ l.erase sp, p.length = 3 := fun p hp =>
    hcoords (site, l) (dictGet?_mem _ _ _ hlook) p (List.erase_subset _ _ hp)
  have hd1 : ∀ e ∈ dictSet pd.element_positions site (l.erase sp), ∀ p ∈ e.2, p.length = 3 :=
    dictSet_coords_3 _ hcoords _ _ herase3
  rcases hbranch with ⟨_, c1, _, hAB⟩ | ⟨_, _, hC⟩ | ⟨_, _, hD⟩
  · rcases hAB with ⟨_, lsub, hlsub, hA⟩ | ⟨_, hB⟩
    · rw [hA]
      refine dictSet_coords_3 _ hd1 _ _ ?_
      intro p hp
      rcases List.mem_append.mp hp with hp' | hp'
      · exact hd1 (sub, lsub) (dictGet?_mem _ _ _ hlsub) p hp'
      · rcases List.mem_singleton.mp hp' with rfl
        exact hsp3
    · rw [hB]
      exact hd1
  · rw [hC]
    exact hd1
  · rw [hD]
    refine dictSet_coords_3 _ (dictSet_coords_3 _ hd1 _ _ (by simp)) _ _ ?_
    intro p hp
    rcases List.mem_singleton.mp (by simpa using hp) with rfl
    exact hsp3

theorem substituteCore_preserves (pd : ParsedData) (sub site : Str) (tgt : Option Coord)
    (r : SubResult)
    (hnd : pd.atom_types.Nodup)
    (hpres : ∀ t ∈ pd.atom_types, (dictGet? pd.element_positions t).isSome)
    (hcounts : pd.atom_counts = pd.atom_types.map
      (fun t => (((dictGet? pd.element_positions t).getD []).length : Int)))
    (hVa : sub = "Va".data → sub ∉ pd.atom_types)
    (h : substituteCore pd sub site tgt = .ok r) :
    r.atom_types.Nodup ∧
    (∀ t ∈ r.atom_types, (dictGet? r.positions t).isSome) ∧
    r.atom_counts = r.atom_types.map
      (fun t => (((dictGet? r.positions t).getD []).length : Int)) := by
  obtain ⟨hsite, l, sp, c0, hlook, hfc, hc0, hsp, hbranch⟩ :=
    substituteCore_ok_elim pd sub site tgt r h
  have hsig := findIdx_eq_of_mem pd.atom_types site hsite
  have hc0v : c0 = ((l.length : Int)) := by
    have hg := counts_get_of_map _ _ _ hcounts _ _ hsig.2
    have hcc := hc0.symm.trans hg
    rw [hlook] at hcc
    simpa using hcc
  have hspl : sp ∈ l := find_closest_mem _ _ _ hfc
  have hl1 : 1 ≤ l.length := List.length_pos.mpr (List.ne_nil_of_mem hspl)
  have herlen : (((l.erase sp).length : Int)) = c0 - 1 := by
    rw [List.length_erase, if_pos hspl]
    omega
  have hmid : pd.atom_counts.set (pd.atom_types.findIdx (· == site)) (c0 - 1) =
      pd.atom_types.map (fun t =>
        (((dictGet? (dictSet pd.element_positions site (l.erase sp)) t).getD []).length : Int)) := by
    rw [hcounts]
    have hms := map_set_of_nodup pd.atom_types hnd
      (fun t => (((dictGet? pd.element_positions t).getD []).length : Int))
      (fun t => (((dictGet? (dictSet pd.element_positions site (l.erase sp)) t).getD []).length : Int))
      site (pd.atom_types.findIdx (· == site)) hsig.2
      (by
        intro t _ hts
        dsimp only
        rw [dictGet?_dictSet_ne _ _ _ _ hts])
    rw [← hms]
    congr 1
    dsimp only
    rw [dictGet?_dictSet_self]
    simp only [Option.getD_some]
    omega
  rcases hbranch with ⟨hsub, c1, hc1, hAB⟩ | ⟨hsub, hva, hC⟩ | ⟨hsub, hva, hD⟩
  · have hbig := findIdx_eq_of_mem pd.atom_types sub hsub
    have hBexcl : sub ≠ "Va".data := fun hcon => hVa hcon hsub
    rcases hAB with ⟨_, lsub, hlsub, hA⟩ | ⟨hvaeq, _⟩
    · have hc1v : c1 = ((lsub.length : Int)) := by
        have hg := counts_get_of_map _ _ _ hmid _ _ hbig.2
        have hcc := hc1.symm.trans hg
        rw [hlsub] at hcc
        simpa using hcc
      rw [hA]
      refine ⟨hnd, ?_, ?_⟩
      · intro t ht
        by_cases hts : t = sub
        · subst hts
          rw [dictGet?_dictSet_self]
          rfl
        · rw [dictGet?_dictSet_ne _ _ _ _ hts]
          by_cases htsite : t = site
          · subst htsite
            rw [dictGet?_dictSet_self]
            rfl
          · rw [dictGet?_dictSet_ne _ _ _ _ htsite]
            exact hpres t ht
      · rw [hmid]
        have hms := map_set_of_nodup pd.atom_types hnd
          (fun t => (((dictGet? (dictSet pd.element_positions site (l.erase sp)) t).getD
            []).length : Int))
          (fun t => (((dictGet? (dictSet (dictSet pd.element_positions site (l.erase sp)) sub
            (lsub ++ [sp])) t).getD []).length : Int))
          sub (pd.atom_types.findIdx (· == sub)) hbig.2
          (by
            intro t _ hts
            dsimp only
            rw [dictGet?_dictSet_ne _ _ _ _ hts])
        have hfsub : (((dictGet? (dictSet (dictSet pd.element_positions site (l.erase sp)) sub
            (lsub ++ [sp])) sub).getD []).length : Int) = c1 + 1 := by
          rw [dictGet?_dictSet_self]
          simp only [Option.getD_some, List.length_append, List.length_singleton]
          push_cast
          omega
        rw [← hfsub]
        exact hms
    · exact absurd hvaeq hBexcl
  · rw [hC]
    refine ⟨hnd, ?_, ?_⟩
    · intro t ht
      by_cases htsite : t = site
      · subst htsite
        rw [dictGet?_dictSet_self]
        rfl
      · rw [dictGet?_dictSet_ne _ _ _ _ htsite]
        exact hpres t ht
    · exact hmid
  · rw [hD]
    dsimp only
    have hnd2 : (pd.atom_types ++ [sub]).Nodup := by
      rw [List.nodup_append]
      exact ⟨hnd, List.nodup_singleton _, by simpa using fun hmem => hsub hmem⟩
    refine ⟨hnd2, ?_, ?_⟩
    · intro t ht
      by_cases hts : t = sub
      · subst hts
        rw [dictGet?_dictSet_self]
        rfl
      · rw [dictGet?_dictSet_ne _ _ _ _ hts, dictGet?_dictSet_ne _ _ _ _ hts]
        have ht2 : t ∈ pd.atom_types := by
          rcases List.mem_append.mp ht with h2 | h2
          · exact h2
          · exact absurd (List.mem_singleton.mp h2) hts
        by_cases htsite : t = site
        · subst htsite
          rw [dictGet?_dictSet_self]
          rfl
        · rw [dictGet?_dictSet_ne _ _ _ _ htsite]
          exact hpres t ht2
    · rw [List.map_append, hmid]
      congr 1
      · apply List.map_congr_left
        intro t ht
        have hts : t ≠ sub := fun hcon => hsub (hcon ▸ ht)
        rw [dictGet?_dictSet_ne _ _ _ _ hts, dictGet?_dictSet_ne _ _ _ _ hts]
      · simp only [List.map_singleton]
        rw [dictGet?_dictSet_self]
        rfl

/-! ### Tokens produced by `split()` are nonempty and whitespace-free -/

theorem pySplitAux_tokens :
    ∀ (s acc : Str), (∀ c ∈ acc, isWs c = false) →
      ∀ t ∈ pySplitAux s acc, t ≠ [] ∧ ∀ c ∈ t, isWs c = false := by
  intro s
  induction s with
  | nil =>
    intro acc hacc t ht
    simp only [pySplitAux] at ht
    by_cases ha : acc = []
    · rw [if_pos ha] at ht
      simp at ht
    · rw [if_neg ha] at ht
      rcases List.mem_singleton.mp ht with rfl
      exact ⟨by simpa using ha, fun c hc => hacc c (List.mem_reverse.mp hc)⟩
  | cons c0 rest ih =>
    intro acc hacc t ht
    simp only [pySplitAux] at ht
    by_cases hw : isWs c0 = true
    · rw [if_pos hw] at ht
      by_cases ha : acc = []
      · rw [if_pos ha] at ht
        exact ih [] (by simp) t ht
      · rw [if_neg ha] at ht
        rcases List.mem_cons.mp ht with rfl | ht'
        · exact ⟨by simpa using ha, fun c hc => hacc c (List.mem_reverse.mp hc)⟩
        · exact ih [] (by simp) t ht'
    · rw [if_neg hw] at ht
      refine ih (c0 :: acc) ?_ t ht
      intro c hc
      rcases List.mem_cons.mp hc with rfl | hc'
      · simpa using hw
      · exact hacc c hc'

theorem pySplit_tokens (s : Str) : ∀ t ∈ pySplit s, t ≠ [] ∧ ∀ c ∈ t, isWs c = false :=
  pySplitAux_tokens s [] (by simp)

/-! ### Characterizing the marker scan -/

theorem findMarkerFrom_some :
    ∀ (ls : List Str) (i k : Nat), findMarkerFrom ls i = some k →
      i ≤ k ∧ k - i < ls.length ∧ isCoordMarker (ls.getD (k - i) []) = true ∧
        ∀ j < k - i, isCoordMarker (ls.getD j []) = false := by
  intro ls
  induction ls with
  | nil => intro i k h; simp [findMarkerFrom] at h
  | cons l rest ih =>
    intro i k h
    simp only [findMarkerFrom] at h
    by_cases hm : isCoordMarker l = true
    · rw [if_pos hm] at h
      cases h
      refine ⟨le_refl _, by simp, by simpa using hm, ?_⟩
      intro j hj
      omega
    · rw [if_neg hm] at h
      obtain ⟨h1, h2, h3, h4⟩ := ih (i + 1) k h
      simp only [Bool.not_eq_true] at hm
      refine ⟨by omega, by simp only [List.length_cons]; omega, ?_, ?_⟩
      · have hk : k - i = (k - (i + 1)) + 1 := by omega
        rw [hk]
        simpa using h3
      · intro j hj
        cases j with
        | zero => simpa using hm
        | succ j' =>
          have hj' : j' < k - (i + 1) := by omega
          simpa using h4 j' hj'

theorem findMarkerFrom_eq_some_of :
    ∀ (ls : List Str) (i j : Nat), j < ls.length → isCoordMarker (ls.getD j []) = true →
      (∀ m < j, isCoordMarker (ls.getD m []) = false) →
      findMarkerFrom ls i = some (i + j) := by
  intro ls
  induction ls with
  | nil => intro i j h; simp at h
  | cons l rest ih =>
    intro i j hj hmark hbefore
    simp only [findMarkerFrom]
    cases j with
    | zero =>
      rw [if_pos (by simpa using hmark)]
      simp
    | succ j' =>
      have h0 : isCoordMarker l = false := by simpa using hbefore 0 (by omega)
      rw [if_neg (by simp [h0])]
      have hrec := ih (i + 1) j'
        (by simp only [List.length_cons] at hj; omega)
        (by simpa using hmark)
        (fun m hm => by simpa using hbefore (m + 1) (by omega))
      rw [hrec]
      congr 1
      omega

theorem findMarkerFrom_eq_none_of :
    ∀ (ls : List Str) (i : Nat),
      (∀ j < ls.length, isCoordMarker (ls.getD j []) = false) →
      findMarkerFrom ls i = none := by
  intro ls
  induction ls with
  | nil => intro i _; rfl
  | cons l rest ih =>
    intro i h
    simp only [findMarkerFrom]
    have h0 : isCoordMarker l = false := by simpa using h 0 (by simp)
    rw [if_neg (by simp [h0])]
    exact ih (i + 1) (fun j hj => by simpa using h (j + 1) (by simpa using Nat.succ_lt_succ hj))

theorem getD_drop (lines : List Str) (n j : Nat) :
    (lines.drop n).getD j [] = lines.getD (n + j) [] := by
  simp [List.getD, List.get?_drop]

theorem firstMarkerIdx_some_spec (lines : List Str) (ci : Nat)
    (h : firstMarkerIdx lines = some ci) :
    7 ≤ ci ∧ ci < lines.length ∧ isCoordMarker (lines.getD ci []) = true ∧
      ∀ j, 7 ≤ j → j < ci → isCoordMarker (lines.getD j []) = false := by
  obtain ⟨h1, h2, h3, h4⟩ := findMarkerFrom_some (lines.drop 7) 7 ci h
  rw [List.length_drop] at h2
  refine ⟨h1, by omega, ?_, ?_⟩
  · rw [getD_drop] at h3
    have he : 7 + (ci - 7) = ci := by omega
    rwa [he] at h3
  · intro j hj7 hjc
    have hh := h4 (j - 7) (by omega)
    rw [getD_drop] at hh
    have he : 7 + (j - 7) = j := by omega
    rwa [he] at hh

theorem firstMarkerIdx_eq_some_of (lines : List Str) (ci : Nat)
    (h7 : 7 ≤ ci) (hlt : ci < lines.length)
    (hmark : isCoordMarker (lines.getD ci []) = true)
    (hbefore : ∀ j, 7 ≤ j → j < ci → isCoordMarker (lines.getD j []) = false) :
    firstMarkerIdx lines = some ci := by
  have hh := findMarkerFrom_eq_some_of (lines.drop 7) 7 (ci - 7)
    (by rw [List.length_drop]; omega)
    (by
      rw [getD_drop, (show 7 + (ci - 7) = ci by omega)]
      exact hmark)
    (fun m hm => by
      rw [getD_drop]
      exact hbefore (7 + m) (by omega) (by omega))
  rw [firstMarkerIdx, hh]
  congr 1
  omega

theorem firstMarkerIdx_eq_none_of (lines : List Str)
    (h : ∀ j, 7 ≤ j → j < lines.length → isCoordMarker (lines.getD j []) = false) :
    firstMarkerIdx lines = none := by
  rw [firstMarkerIdx]
  refine findMarkerFrom_eq_none_of (lines.drop 7) 7 (fun j hj => ?_)
  rw [List.length_drop] at hj
  rw [getD_drop]
  exact h (7 + j) (by omega) (by omega)

/-! ### Flattening after a bucket update -/

theorem flatten_congr (ts : List Str) (d d' : Dict)
    (h : ∀ x ∈ ts, dictGet? d x = dictGet? d' x) :
    flatten_positions ts d = flatten_positions ts d' := by
  rw [flatten_positions_eq, flatten_positions_eq]
  congr 1
  apply List.map_congr_left
  intro x hx
  rw [h x hx]

theorem flatten_append_one (ts : List Str) (t : Str) (d : Dict) :
    flatten_positions (ts ++ [t]) d = flatten_positions ts d ++ (dictGet? d t).getD [] := by
  rw [flatten_positions_eq, flatten_positions_eq, List.map_append, List.flatten_append]
  simp

theorem flatten_dictSet_decomp (ts : List Str) (hnd : ts.Nodup) (t : Str) (ht : t ∈ ts)
    (d : Dict) :
    ∃ FL FR, (∀ v, flatten_positions ts (dictSet d t v) = FL ++ v ++ FR) ∧
      flatten_positions ts d = FL ++ ((dictGet? d t).getD []) ++ FR := by
  obtain ⟨L, R, rfl⟩ := List.append_of_mem ht
  rw [List.nodup_append] at hnd
  have hnotL : t ∉ L := fun hc => hnd.2.2 hc (List.mem_cons_self _ _)
  refine ⟨(L.map (fun a => (dictGet? d a).getD [])).flatten,
          (R.map (fun a => (dictGet? d a).getD [])).flatten, ?_, ?_⟩
  · intro v
    have hL : L.map (fun a => (dictGet? (dictSet d t v) a).getD []) =
        L.map (fun a => (dictGet? d a).getD []) := by
      apply List.map_congr_left
      intro x hx
      have hxt : x ≠ t := fun hc => hnotL (hc ▸ hx)
      rw [dictGet?_dictSet_ne _ _ _ _ hxt]
    have hnotR : t ∉ R := by
      have h21 := hnd.2.1
      rw [List.nodup_cons] at h21
      exact h21.1
    have hR : R.map (fun a => (dictGet? (dictSet d t v) a).getD []) =
        R.map (fun a => (dictGet? d a).getD []) := by
      apply List.map_congr_left
      intro x hx
      have hxt : x ≠ t := fun hc => hnotR (hc ▸ hx)
      rw [dictGet?_dictSet_ne _ _ _ _ hxt]
    rw [flatten_positions_eq, List.map_append, List.map_cons, List.flatten_append,
      List.flatten_cons, hL, hR, dictGet?_dictSet_self]
    simp [List.append_assoc]
  · rw [flatten_positions_eq, List.map_append, List.map_cons, List.flatten_append,
      List.flatten_cons]
    simp [List.append_assoc]

/-! ### The count sum law and the position multiset law -/

theorem substituteCore_counts_sum (pd : ParsedData) (sub site : Str) (tgt : Option Coord)
    (r : SubResult)
    (hVa : sub = "Va".data → sub ∉ pd.atom_types)
    (h : substituteCore pd sub site tgt = .ok r) :
    r.atom_counts.sum =
      pd.atom_counts.sum - 1 + (if sub = "Va".data then 0 else 1) := by
  obtain ⟨hsite, l, sp, c0, hlook, hfc, hc0, hsp, hbranch⟩ :=
    substituteCore_ok_elim pd sub site tgt r h
  rcases hbranch with ⟨hsub, c1, hc1, hAB⟩ | ⟨hsub, hva, hC⟩ | ⟨hsub, hva, hD⟩
  · rcases hAB with ⟨hva, lsub, hlsub, hA⟩ | ⟨hva, hB⟩
    · rw [hA]
      dsimp only
      rw [if_neg hva, sum_set_int _ _ _ _ hc1, sum_set_int _ _ _ _ hc0]
      omega
    · exact absurd hsub (hVa hva)
  · rw [hC]
    dsimp only
    rw [if_pos hva, sum_set_int _ _ _ _ hc0]
    omega
  · rw [hD]
    dsimp only
    rw [if_neg hva, List.sum_append, sum_set_int _ _ _ _ hc0]
    simp only [List.sum_cons, List.sum_nil]
    omega

/-- The two `BEq` instances that can appear on `Coord` (the derived one and
the list-structural one) erase the same element. -/
theorem erase_beq_eq (l : List Coord) (a : Coord) :
    @List.erase Coord List.instBEq l a = @List.erase Coord instBEqOfDecidableEq l a := by
  induction l with
  | nil => rfl
  | cons x xs ih =>
    simp only [List.erase_cons]
    by_cases hx : x = a
    · simp [hx]
    · simp [hx, ih]

theorem substituteCore_multiset (pd : ParsedData) (sub site : Str) (tgt : Option Coord)
    (r : SubResult)
    (hnd : pd.atom_types.Nodup)
    (h : substituteCore pd sub site tgt = .ok r) :
    (↑(flatten_positions r.atom_types r.positions) : Multiset Coord) =
      (↑(flatten_positions pd.atom_types pd.element_positions) : Multiset Coord).erase
          r.substituted_position
        + (if sub = "Va".data then 0 else {r.substituted_position}) := by
  obtain ⟨hsite, l, sp, c0, hlook, hfc, hc0, hsp, hbranch⟩ :=
    substituteCore_ok_elim pd sub site tgt r h
  have hspl : sp ∈ l := find_closest_mem _ _ _ hfc
  obtain ⟨AL, AR, hAset, hAd⟩ :=
    flatten_dictSet_decomp pd.atom_types hnd site hsite pd.element_positions
  rw [hlook] at hAd
  simp only [Option.getD_some] at hAd
  have herase : (↑(flatten_positions pd.atom_types pd.element_positions) :
      Multiset Coord).erase sp = ↑AL + ↑(l.erase sp) + ↑AR := by
    rw [hAd]
    rw [← Multiset.coe_add, ← Multiset.coe_add]
    rw [Multiset.erase_add_left_pos _ (by
      rw [Multiset.mem_add]
      exact Or.inr (by exact_mod_cast hspl))]
    rw [Multiset.erase_add_right_pos _ (by exact_mod_cast hspl)]
    rw [Multiset.coe_erase, erase_beq_eq]
  rcases hbranch with ⟨hsub, c1, hc1, hAB⟩ | ⟨hsub, hva, hC⟩ | ⟨hsub, hva, hD⟩
  · rcases hAB with ⟨hva, lsub, hlsub, hA⟩ | ⟨hva, hB⟩
    · obtain ⟨BL, BR, hBset, hBd⟩ :=
        flatten_dictSet_decomp pd.atom_types hnd sub hsub
          (dictSet pd.element_positions site (l.erase sp))
      rw [hlsub] at hBd
      simp only [Option.getD_some] at hBd
      have hmidflat : BL ++ lsub ++ BR = AL ++ l.erase sp ++ AR := by
        rw [← hBd, hAset]
      rw [hA]
      dsimp only
      rw [hBset (lsub ++ [sp]), herase, if_neg hva]
      have hml : (↑(BL ++ lsub ++ BR) : Multiset Coord) =
          ↑(AL ++ l.erase sp ++ AR) := by rw [hmidflat]
      simp only [← Multiset.coe_add] at hml ⊢
      rw [← Multiset.coe_singleton sp]
      calc (↑BL + (↑lsub + ↑[sp]) + ↑BR : Multiset Coord)
          = (↑BL + ↑lsub + ↑BR) + ↑[sp] := by abel
        _ = (↑AL + ↑(l.erase sp) + ↑AR) + ↑[sp] := by rw [hml]
    · rw [hB]
      dsimp only
      rw [hAset (l.erase sp), herase, if_pos hva, add_zero]
      simp only [← Multiset.coe_add]
  · rw [hC]
    dsimp only
    rw [hAset (l.erase sp), herase, if_pos hva, add_zero]
    simp only [← Multiset.coe_add]
  · rw [hD]
    dsimp only
    rw [flatten_append_one, dictGet?_dictSet_self]
    have hcongr : flatten_positions pd.atom_types
        (dictSet (dictSet (dictSet pd.element_positions site (l.erase sp)) sub []) sub
          ([] ++ [sp])) =
        flatten_positions pd.atom_types (dictSet pd.element_positions site (l.erase sp)) := by
      apply flatten_congr
      intro x hx
      have hxt : x ≠ sub := fun hc => hsub (hc ▸ hx)
      rw [dictGet?_dictSet_ne _ _ _ _ hxt, dictGet?_dictSet_ne _ _ _ _ hxt]
    rw [hcongr, hAset (l.erase sp), herase, if_neg hva]
    simp only [Option.getD_some, List.nil_append, ← Multiset.coe_add,
      ← Multiset.coe_singleton sp]

/-! ### The exact shape of the serialized output -/

theorem pySlice_zero_five (l : List Str) : pySlice l 0 5 = l.take 5 := by
  unfold pySlice pyIdx
  rw [if_neg (by omega : ¬ (5:Int) < 0), if_neg (by omega : ¬ (0:Int) < 0)]
  have h0 : ((0:Int)).toNat.min l.length = 0 := by simp
  rw [h0, List.drop_zero]
  have hmin : Nat.min 5 l.length = if 5 ≤ l.length then 5 else l.length := rfl
  rcases le_or_lt 5 l.length with hle | hlt
  · rw [(show ((5:Int)).toNat = 5 from rfl), hmin, if_pos hle]
  · rw [(show ((5:Int)).toNat = 5 from rfl), hmin, if_neg (by omega)]
    rw [List.take_length, List.take_all_of_le (by omega)]

theorem setHead_take5_append (l : List Str) (rest : List Str) (s : Str) (h : l ≠ []) :
    setHead (l.take 5 ++ rest) s = s :: ((l.take 5).drop 1 ++ rest) := by
  cases l with
  | nil => exact absurd rfl h
  | cons a t => rfl

/-- The serialized output, fully normalized: the synthesized descriptor, the
4 retained header lines, the species line, the counts line, the
coordinate-type line, and one rendered line per position. -/
theorem serializeOut_shape (pd : ParsedData) (r : SubResult) (sub site : Str)
    (h3 : ∀ p ∈ flatten_positions r.atom_types r.positions, 3 ≤ p.length)
    (hne : pd.lines ≠ []) :
    serializeOut pd r sub site = .ok (
      (sub ++ '_' :: site ++ " defect ".data
        ++ joinSep [' '] (r.substituted_position.map fmt16) ++ ['\n'])
      :: ((pd.lines.take 5).drop 1
        ++ ["  ".data ++ joinSep "  ".data r.atom_types ++ ['\n'],
            "  ".data ++ joinSep "  ".data (r.atom_counts.map intToStr) ++ ['\n'],
            pd.coord_type ++ ['\n']]
        ++ (flatten_positions r.atom_types r.positions).map fmtLine3),
      sub ++ '_' :: site ++ "_POSCAR".data) := by
  rw [serializeOut_eq pd r sub site h3, pySlice_zero_five, List.append_assoc,
    setHead_take5_append _ _ _ hne]
  simp [List.append_assoc]

theorem substituteCore_types (pd : ParsedData) (sub site : Str) (tgt : Option Coord)
    (r : SubResult) (h : substituteCore pd sub site tgt = .ok r) :
    r.atom_types = pd.atom_types ∨
      (sub ∉ pd.atom_types ∧ sub ≠ "Va".data ∧ r.atom_types = pd.atom_types ++ [sub]) := by
  obtain ⟨hsite, l, sp, c0, hlook, hfc, hc0, hsp, hbranch⟩ :=
    substituteCore_ok_elim pd sub site tgt r h
  rcases hbranch with ⟨hsub, c1, hc1, hAB⟩ | ⟨hsub, hva, hC⟩ | ⟨hsub, hva, hD⟩
  · rcases hAB with ⟨hva, lsub, hlsub, hA⟩ | ⟨hva, hB⟩
    · rw [hA]
      exact Or.inl rfl
    · rw [hB]
      exact Or.inl rfl
  · rw [hC]
    exact Or.inl rfl
  · rw [hD]
    exact Or.inr ⟨hsub, hva, rfl⟩

/-! ### Re-parsing a rendered coordinate line -/

theorem parseCoordLine_fmtLine3 (p : Coord) (h : p.length = 3) :
    parseCoordLine (fmtLine3 p) = some (p.map round16) := by
  match p, h with
  | [a, b, c], _ =>
    have hline : fmtLine3 [a, b, c] =
        "  ".data ++ (joinSep "  ".data [fmt16 a, fmt16 b, fmt16 c] ++ ['\n']) := by
      simp [fmtLine3, joinSep, List.append_assoc]
    have htoks : ∀ t ∈ [fmt16 a, fmt16 b, fmt16 c], t ≠ [] ∧ ∀ c ∈ t, isWs c = false := by
      intro t ht
      rcases List.mem_cons.mp ht with rfl | ht'
      · exact ⟨fmt16_ne_nil a, fmt16_not_ws a⟩
      rcases List.mem_cons.mp ht' with rfl | ht''
      · exact ⟨fmt16_ne_nil b, fmt16_not_ws b⟩
      rcases List.mem_singleton.mp ht'' with rfl
      exact ⟨fmt16_ne_nil c, fmt16_not_ws c⟩
    rw [parseCoordLine, hline,
      pySplit_line "  ".data "  ".data ['\n'] (by decide) (by decide) (by decide) (by decide)
        [fmt16 a, fmt16 b, fmt16 c] htoks]
    simp [mapOpt, pyFloat?_fmt16]

theorem mapOpt_pyInt_intToStr (cs : List Int) :
    mapOpt pyInt? (cs.map intToStr) = some cs := by
  induction cs with
  | nil => rfl
  | cons c cs' ih => simp [mapOpt, pyInt?_intToStr, ih]

theorem sum_cast_lengths (ts : List Str) (g : Str → List Coord) :
    (ts.map (fun t => ((g t).length : Int))).sum = (((ts.map g).map List.length).sum : Int) := by
  induction ts with
  | nil => rfl
  | cons t ts' ih =>
    simp only [List.map_cons, List.sum_cons, ih]
    push_cast
    ring

/-! ### Re-parsing the serialized output -/

/-- Parsing a file in the shape the serializer emits recovers the species
order, the counts, the re-stripped coordinate-type line, and every position
with each coordinate replaced by its 16-digit rounding. -/
theorem parse_of_serialized (desc : Str) (hdr : List Str) (hhdr : hdr.length = 4)
    (ct : Str) (hct : isCoordMarker (ct ++ ['\n']) = true)
    (ts : List Str) (htok : ∀ t ∈ ts, t ≠ [] ∧ ∀ c ∈ t, isWs c = false)
    (hnd : ts.Nodup)
    (P : Dict) (counts : List Int)
    (hcounts : counts = ts.map (fun t => (((dictGet? P t).getD []).length : Int)))
    (h3 : ∀ p ∈ flatten_positions ts P, p.length = 3) :
    parse_poscar (((desc :: hdr)
        ++ ["  ".data ++ joinSep "  ".data ts ++ ['\n'],
            "  ".data ++ joinSep "  ".data (counts.map intToStr) ++ ['\n'],
            ct ++ ['\n']])
        ++ (flatten_positions ts P).map fmtLine3) =
      .ok ⟨((desc :: hdr)
        ++ ["  ".data ++ joinSep "  ".data ts ++ ['\n'],
            "  ".data ++ joinSep "  ".data (counts.map intToStr) ++ ['\n'],
            ct ++ ['\n']])
        ++ (flatten_positions ts P).map fmtLine3,
        ts, counts, pyStrip (ct ++ ['\n']),
        ts.map (fun t => (t, ((dictGet? P t).getD []).map (fun p => p.map round16)))⟩ := by
  set L1 := "  ".data ++ joinSep "  ".data ts ++ ['\n'] with hL1
  set L2 := "  ".data ++ joinSep "  ".data (counts.map intToStr) ++ ['\n'] with hL2
  set L3 := ct ++ ['\n'] with hL3
  set PosL := (flatten_positions ts P).map fmtLine3 with hPosL
  set A := desc :: hdr with hA
  set nl := (A ++ [L1, L2, L3]) ++ PosL with hnl
  have hA5 : A.length = 5 := by
    rw [hA]
    simp [hhdr]
  have hgetmid : ∀ j, nl.get? (5 + j) = ([L1, L2, L3] ++ PosL).get? j := by
    intro j
    rw [hnl, List.append_assoc, List.get?_append_right (by rw [hA5]; omega), hA5]
    congr 1
    omega
  have h5 : nl.get? 5 = some L1 := by simpa using hgetmid 0
  have h6 : nl.get? 6 = some L2 := by simpa using hgetmid 1
  have h7 : nl.get? 7 = some L3 := by simpa using hgetmid 2
  have hgetD7 : nl.getD 7 [] = L3 := by
    have h7x : nl[7]? = some L3 := by
      rw [← List.get?_eq_getElem?]
      exact h7
    simp [List.getD, h7x]
  have hsplitL1 : pySplit L1 = ts := by
    rw [hL1, List.append_assoc]
    exact pySplit_line _ _ _ (by decide) (by decide) (by decide) (by decide) ts htok
  have hsplitL2 : mapOpt pyInt? (pySplit L2) = some counts := by
    rw [hL2, List.append_assoc,
      pySplit_line _ _ _ (by decide) (by decide) (by decide) (by decide) (counts.map intToStr)
        (by
          intro t ht
          obtain ⟨c, _, rfl⟩ := List.mem_map.mp ht
          exact ⟨intToStr_ne_nil c, intToStr_not_ws c⟩),
      mapOpt_pyInt_intToStr]
  have hlen7 : 7 < nl.length := by
    rw [hnl]
    simp only [List.length_append, List.length_cons, List.length_nil, hA5]
    omega
  have hmark7 : firstMarkerIdx nl = some 7 := by
    refine firstMarkerIdx_eq_some_of nl 7 (le_refl 7) hlen7 ?_ ?_
    · rw [hgetD7, hL3]
      exact hct
    · intro j h7j hj7
      omega
  have hsumInt : counts.sum = ((flatten_positions ts P).length : Int) := by
    rw [hcounts, sum_cast_lengths ts (fun t => (dictGet? P t).getD []),
      flatten_positions_eq, List.length_flatten, List.map_map]
  have hsum : counts.sum.toNat = (flatten_positions ts P).length := by
    rw [hsumInt]
    simp
  have hlineparse : ∀ p ∈ flatten_positions ts P,
      parseCoordLine (fmtLine3 p) = some (p.map round16) := fun p hp =>
    parseCoordLine_fmtLine3 p (h3 p hp)
  have hread : readPositions nl 8 counts.sum.toNat =
      .ok ((flatten_positions ts P).map (fun p => p.map round16)) := by
    have happ := readPositions_append [] (fun line => (parseCoordLine line).getD [])
      PosL (A ++ [L1, L2, L3])
      (by
        intro l hl
        rw [hPosL] at hl
        obtain ⟨p, hp, rfl⟩ := List.mem_map.mp hl
        dsimp only
        rw [hlineparse p hp]
        rfl)
    rw [List.append_nil] at happ
    have hl8 : (A ++ [L1, L2, L3]).length = 8 := by
      simp [hA5]
    rw [hl8] at happ
    have hlp : PosL.length = counts.sum.toNat := by
      rw [hPosL, List.length_map, hsum]
    rw [hlp] at happ
    rw [← hnl] at happ
    rw [happ]
    congr 1
    rw [hPosL, List.map_map]
    apply List.map_congr_left
    intro p hp
    simp only [Function.comp_apply, hlineparse p hp]
    rfl
  have hcl : counts.length = ts.length := by
    rw [hcounts, List.length_map]
  have hkeys : (ts.zip counts).map Prod.fst = ts :=
    List.map_fst_zip _ _ (le_of_eq hcl.symm)
  have hslice : sliceList (ts.zip counts)
      ((flatten_positions ts P).map (fun p => p.map round16)) 0 =
      ts.map (fun t => (t, ((dictGet? P t).getD []).map (fun p => p.map round16))) := by
    have hsc := sliceList_of_concat
      (ts.map (fun t => (t, ((dictGet? P t).getD []).map (fun p => p.map round16)))) []
    simp only [List.nil_append, List.length_nil, Nat.cast_zero] at hsc
    have h1 : (ts.map (fun t => (t, ((dictGet? P t).getD []).map
          (fun p => p.map round16)))).map (fun p => (p.1, ((p.2.length : Nat) : Int))) =
        ts.zip counts := by
      rw [List.map_map, hcounts, ← List.map_prod_left_eq_zip]
      apply List.map_congr_left
      intro t _
      simp [List.length_map]
    have h2 : ((ts.map (fun t => (t, ((dictGet? P t).getD []).map
          (fun p => p.map round16)))).map Prod.snd).flatten =
        (flatten_positions ts P).map (fun p => p.map round16) := by
      rw [List.map_map, flatten_positions_eq, List.map_flatten, List.map_map]
      rfl
    rw [← h1, ← h2]
    exact hsc
  have hbuild : buildDict ((pySplit L1).zip counts)
      ((flatten_positions ts P).map (fun p => p.map round16)) 0 [] =
      ts.map (fun t => (t, ((dictGet? P t).getD []).map (fun p => p.map round16))) := by
    rw [hsplitL1]
    rw [buildDict_eq _ _ _ [] (fun a _ => rfl) (by rw [hkeys]; exact hnd)]
    rw [List.nil_append]
    exact hslice
  rw [parse_poscar_eq_ok nl L1 L2 counts 7
    ((flatten_positions ts P).map (fun p => p.map round16)) h5 h6 hsplitL2 hmark7 hread]
  rw [hbuild, hsplitL1, hgetD7]

/-! ### Parse-time well-formedness, engine failure modes -/

theorem parse_wf_parts (lines : List Str) (pd : ParsedData)
    (h : parse_poscar lines = .ok pd)
    (hnd : pd.atom_types.Nodup)
    (hlen : pd.atom_counts.length = pd.atom_types.length)
    (hnn : ∀ c ∈ pd.atom_counts, 0 ≤ c) :
    (∀ t ∈ pd.atom_types, (dictGet? pd.element_positions t).isSome) ∧
    pd.atom_counts = pd.atom_types.map
      (fun t => (((dictGet? pd.element_positions t).getD []).length : Int)) := by
  have hcons := parse_consistency lines pd h hnd hlen hnn
  constructor
  · intro t ht
    obtain ⟨i, hi⟩ := List.get?_of_mem ht
    obtain ⟨l, hl, _⟩ := hcons i t hi
    rw [hl]
    rfl
  · apply List.ext_get?
    intro i
    cases hti : pd.atom_types.get? i with
    | none =>
      rw [List.get?_eq_none] at hti
      rw [List.get?_eq_none.mpr (by omega), List.get?_eq_none.mpr
        (by rw [List.length_map]; omega)]
    | some t =>
      obtain ⟨l, hl, hc⟩ := hcons i t hti
      rw [hc, List.get?_map, hti]
      simp only [Option.map_some']
      rw [hl]
      rfl

theorem substituteCore_unknown (pd : ParsedData) (sub site : Str) (tgt : Option Coord)
    (hsite : site ∉ pd.atom_types) :
    substituteCore pd sub site tgt = .error .UnknownSiteError := by
  simp only [substituteCore, if_neg hsite]

theorem substituteCore_empty (pd : ParsedData) (sub site : Str) (tgt : Option Coord)
    (hsite : site ∈ pd.atom_types)
    (hlook : dictGet? pd.element_positions site = some []) :
    substituteCore pd sub site tgt = .error .EmptySiteError := by
  simp only [substituteCore, if_pos hsite, hlook]
  rfl

theorem readPositions_ok_length_le (lines : List Str) (n start : Nat) (ps : List Coord)
    (h : readPositions lines start n = .ok ps) (hn : 0 < n) :
    start + n ≤ lines.length := by
  obtain ⟨l, p, hget, _, _⟩ := readPositions_ok_get lines n start ps h (n - 1) (by omega)
  have hlt := get?_some_lt _ _ _ hget
  omega

theorem mapOpt_length (f : α → Option β) :
    ∀ (l : List α) (bs : List β), mapOpt f l = some bs → bs.length = l.length := by
  intro l
  induction l with
  | nil =>
    intro bs h
    simp only [mapOpt] at h
    cases h
    rfl
  | cons a l' ih =>
    intro bs h
    simp only [mapOpt] at h
    cases hf : f a with
    | none => rw [hf] at h; exact Option.noConfusion h
    | some b =>
      rw [hf] at h
      cases hm : mapOpt f l' with
      | none => rw [hm] at h; exact Option.noConfusion h
      | some bs' =>
        rw [hm] at h
        cases h
        simp [ih bs' hm]

theorem serialized_get56 (pd : ParsedData) (r : SubResult) (sub site : Str)
    (nl : List Str) (fn : Str)
    (h : serializeOut pd r sub site = .ok (nl, fn))
    (h5len : 5 ≤ pd.lines.length) :
    nl.get? 5 = some ("  ".data ++ joinSep "  ".data r.atom_types ++ ['\n']) ∧
    nl.get? 6 = some ("  ".data ++ joinSep "  ".data (r.atom_counts.map intToStr)
      ++ ['\n']) := by
  obtain ⟨h3, hnl, _⟩ := serializeOut_ok_elim pd r sub site nl fn h
  have hne : pd.lines ≠ [] := by
    intro hcon
    rw [hcon] at h5len
    simp at h5len
  rw [pySlice_zero_five, List.append_assoc, setHead_take5_append _ _ _ hne] at hnl
  have hlen4 : ((pd.lines.take 5).drop 1).length = 4 := by
    rw [List.length_drop, List.length_take]
    omega
  subst hnl
  have hget : ∀ j, ((pd.lines.take 5).drop 1
      ++ (["  ".data ++ joinSep "  ".data r.atom_types ++ ['\n'],
          "  ".data ++ joinSep "  ".data (r.atom_counts.map intToStr) ++ ['\n'],
          pd.coord_type ++ ['\n']]
        ++ (flatten_positions r.atom_types r.positions).map fmtLine3)).get? (4 + j) =
      (["  ".data ++ joinSep "  ".data r.atom_types ++ ['\n'],
        "  ".data ++ joinSep "  ".data (r.atom_counts.map intToStr) ++ ['\n'],
        pd.coord_type ++ ['\n']]
        ++ (flatten_positions r.atom_types r.positions).map fmtLine3).get? j := by
    intro j
    rw [List.get?_append_right (by rw [hlen4]; omega), hlen4]
    congr 1
    omega
  constructor
  · have hh := hget 0
    simpa using hh
  · have hh := hget 1
    simpa using hh

/-! ### The claims -/

/-- C1 (amended): for every substitution run in which the vacancy sentinel
`Va` is not itself a listed element, the sum of the element counts of the
mutated structure (the counts the serializer emits) equals the input sum
minus 1, plus 1 unless the substitution species is `Va`.  The original
universally quantified claim is refuted by `claim_C1_counterexample`: when
`Va` is a listed element, a vacancy run increments the count of the element
named `Va` and the total stays unchanged. -/
theorem claim_C1 (pd : ParsedData) (sub site : Str) (tgt : Option Coord) (r : SubResult)
    (hVa : sub = "Va".data → sub ∉ pd.atom_types)
    (h : substituteCore pd sub site tgt = .ok r) :
    r.atom_counts.sum = pd.atom_counts.sum - 1 +
      (if sub = "Va".data then 0 else 1) :=
  substituteCore_counts_sum pd sub site tgt r hVa h

/-- Witness for C1: a vacancy at an `O` site of the demo structure. -/
theorem claim_C1_witness :
    (("Va".data = "Va".data → "Va".data ∉ demoPd.atom_types) ∧
      substituteCore demoPd "Va".data "O".data none = .ok demoRVa) ∧
    demoRVa.atom_counts.sum = demoPd.atom_counts.sum - 1 +
      (if "Va".data = "Va".data then 0 else 1) :=
  ⟨⟨by decide, by decide⟩,
    claim_C1 demoPd "Va".data "O".data none demoRVa (by decide) (by decide)⟩

/-- Counterexample to the original C1: on a structure listing `Va` as an
element, a vacancy substitution leaves the count sum unchanged instead of
decreasing it by 1. -/
theorem claim_C1_counterexample :
    parse_poscar vaLines = .ok vaPd ∧
    substituteCore vaPd "Va".data "Si".data none = .ok vaR ∧
    ¬(vaR.atom_counts.sum = vaPd.atom_counts.sum - 1 +
      (if "Va".data = "Va".data then 0 else 1)) :=
  ⟨by decide, by decide, by decide⟩

/-- C2 (amended): for distinct element symbols, the multiset of position
triples of the mutated structure (the triples the serializer renders, in
exact arithmetic) is the input multiset with the selected position removed
once and, unless vacancy, the same triple added once.  The original claim,
quantified over every successful run, is refuted by
`claim_C2_counterexample` on a structure with a duplicated symbol; no other
hypothesis is needed (in particular a vacancy run with `Va` itself listed
changes only counts, never positions). -/
theorem claim_C2 (pd : ParsedData) (sub site : Str) (tgt : Option Coord) (r : SubResult)
    (hnd : pd.atom_types.Nodup)
    (h : substituteCore pd sub site tgt = .ok r) :
    (↑(flatten_positions r.atom_types r.positions) : Multiset Coord) =
      (↑(flatten_positions pd.atom_types pd.element_positions) : Multiset Coord).erase
          r.substituted_position
        + (if sub = "Va".data then 0 else {r.substituted_position}) :=
  substituteCore_multiset pd sub site tgt r hnd h

/-- Witness for C2: a vacancy at the `Si` site of the structure that lists
`Va` as an element, the very scenario that refutes C1 and C5 — the position
multiset law still holds there. -/
theorem claim_C2_witness :
    (vaPd.atom_types.Nodup ∧
      substituteCore vaPd "Va".data "Si".data none = .ok vaR) ∧
    (↑(flatten_positions vaR.atom_types vaR.positions) : Multiset Coord) =
      (↑(flatten_positions vaPd.atom_types vaPd.element_positions) :
          Multiset Coord).erase vaR.substituted_position
        + (if "Va".data = "Va".data then 0 else {vaR.substituted_position}) :=
  ⟨⟨by decide, by decide⟩,
    claim_C2 vaPd "Va".data "Si".data none vaR (by decide) (by decide)⟩

/-- Counterexample to the original C2: with a duplicated element symbol the
flattened output block loses positions (the duplicate buckets collapse), so
the multiset conservation law fails. -/
theorem claim_C2_counterexample :
    parse_poscar dupLines = .ok dupPd ∧
    substituteCore dupPd "Va".data "Si".data none = .ok dupR ∧
    ¬((↑(flatten_positions dupR.atom_types dupR.positions) : Multiset Coord) =
      (↑(flatten_positions dupPd.atom_types dupPd.element_positions) : Multiset Coord).erase
          dupR.substituted_position
        + (if "Va".data = "Va".data then 0 else {dupR.substituted_position})) := by
  refine ⟨by decide, by decide, ?_⟩
  intro hm
  have hc := congrArg Multiset.card hm
  have h1 : flatten_positions dupR.atom_types dupR.positions = ([] : List Coord) := by decide
  have h2 : flatten_positions dupPd.atom_types dupPd.element_positions =
      [[⟨1, -1⟩, ⟨1, -1⟩, ⟨1, -1⟩], [⟨1, -1⟩, ⟨1, -1⟩, ⟨1, -1⟩]] := by decide
  have h3 : dupR.substituted_position = [⟨1, -1⟩, ⟨1, -1⟩, ⟨1, -1⟩] := by decide
  rw [h1, h2, h3, if_pos rfl, add_zero, Multiset.coe_erase] at hc
  simp only [Multiset.coe_card] at hc
  exact absurd hc (by decide)

/-- C3: on a nonempty list of 3-component coordinates the selector succeeds
and returns an element at minimal Euclidean distance from the target,
strictly closer than everything before it in the list and at most as far as
everything after it (Python `min` keeps the leftmost minimum). -/
theorem claim_C3 (positions : List Coord) (target : Coord)
    (hne : positions ≠ []) (h3 : ∀ p ∈ positions, p.length = 3)
    (ht3 : target.length = 3) :
    ∃ sp l₁ l₂, find_closest_position positions target = .ok sp ∧
      positions = l₁ ++ sp :: l₂ ∧
      (∀ q ∈ l₁, Real.sqrt (((distanceSq sp target).toRat : ℝ)) <
        Real.sqrt (((distanceSq q target).toRat : ℝ))) ∧
      (∀ q ∈ l₂, Real.sqrt (((distanceSq sp target).toRat : ℝ)) ≤
        Real.sqrt (((distanceSq q target).toRat : ℝ))) := by
  cases positions with
  | nil => exact absurd rfl hne
  | cons p rest =>
    obtain ⟨l₁, l₂, hdec, hlt, hle⟩ := foldl_min_decomp
      (fun a b => (distanceSq a target).ltb (distanceSq b target))
      (fun a => (distanceSq a target).toRat)
      (fun a b => Dec.ltb_iff _ _)
      rest p _ rfl
    refine ⟨_, l₁, l₂, rfl, hdec, ?_, ?_⟩
    · intro q hq
      have hq' := hlt q hq
      refine Real.sqrt_lt_sqrt ?_ ?_
      · exact_mod_cast distanceSq_nonneg _ _
      · exact_mod_cast hq'
    · intro q hq
      have hq' := hle q hq
      refine Real.sqrt_le_sqrt ?_
      exact_mod_cast hq'

/-- Witness for C3 at the specification example: points
`[[0,0,0],[0.5,0.5,0.5],[1,1,1]]`, target `[0.4,0.4,0.4]`; the selector
returns `[0.5,0.5,0.5]`. -/
theorem claim_C3_witness :
    (pts3 ≠ [] ∧ (∀ p ∈ pts3, p.length = 3) ∧ tgt3.length = 3 ∧
      find_closest_position pts3 tgt3 = .ok [⟨5, -1⟩, ⟨5, -1⟩, ⟨5, -1⟩]) ∧
    (∃ sp l₁ l₂, find_closest_position pts3 tgt3 = .ok sp ∧
      pts3 = l₁ ++ sp :: l₂ ∧
      (∀ q ∈ l₁, Real.sqrt (((distanceSq sp tgt3).toRat : ℝ)) <
        Real.sqrt (((distanceSq q tgt3).toRat : ℝ))) ∧
      (∀ q ∈ l₂, Real.sqrt (((distanceSq sp tgt3).toRat : ℝ)) ≤
        Real.sqrt (((distanceSq q tgt3).toRat : ℝ)))) :=
  ⟨⟨by decide, by decide, by decide, by decide⟩,
    claim_C3 pts3 tgt3 (by decide) (by decide) (by decide)⟩

/-- C5 (amended): on well-formed input with distinct symbols the parser
establishes the count/position-list consistency invariant, and the engine
preserves it provided the vacancy sentinel is not itself a listed element.
The original claim is refuted by `claim_C5_counterexample`: a vacancy run on
a structure listing `Va` increments the `Va` count without adding a
position. -/
theorem claim_C5 (lines : List Str) (pd : ParsedData)
    (hparse : parse_poscar lines = .ok pd)
    (hnd : pd.atom_types.Nodup)
    (hlen : pd.atom_counts.length = pd.atom_types.length)
    (hnn : ∀ c ∈ pd.atom_counts, 0 ≤ c) :
    pd.atom_counts = pd.atom_types.map
      (fun t => (((dictGet? pd.element_positions t).getD []).length : Int)) ∧
    ∀ (sub site : Str) (tgt : Option Coord) (r : SubResult),
      (sub = "Va".data → sub ∉ pd.atom_types) →
      substituteCore pd sub site tgt = .ok r →
      r.atom_counts = r.atom_types.map
        (fun t => (((dictGet? r.positions t).getD []).length : Int)) := by
  obtain ⟨hpres, hcounts⟩ := parse_wf_parts lines pd hparse hnd hlen hnn
  exact ⟨hcounts, fun sub site tgt r hVa h =>
    (substituteCore_preserves pd sub site tgt r hnd hpres hcounts hVa h).2.2⟩

/-- Witness for C5 at the demo structure. -/
theorem claim_C5_witness :
    (parse_poscar demoLines = .ok demoPd ∧ demoPd.atom_types.Nodup ∧
      demoPd.atom_counts.length = demoPd.atom_types.length ∧
      ∀ c ∈ demoPd.atom_counts, 0 ≤ c) ∧
    (demoPd.atom_counts = demoPd.atom_types.map
      (fun t => (((dictGet? demoPd.element_positions t).getD []).length : Int)) ∧
    ∀ (sub site : Str) (tgt : Option Coord) (r : SubResult),
      (sub = "Va".data → sub ∉ demoPd.atom_types) →
      substituteCore demoPd sub site tgt = .ok r →
      r.atom_counts = r.atom_types.map
        (fun t => (((dictGet? r.positions t).getD []).length : Int))) :=
  ⟨⟨by decide, by decide, by decide, by decide⟩,
    claim_C5 demoLines demoPd (by decide) (by decide) (by decide) (by decide)⟩

/-- Counterexample to the original C5: after a vacancy run on a structure
that lists `Va`, the `Va` count exceeds the length of its position list. -/
theorem claim_C5_counterexample :
    parse_poscar vaLines = .ok vaPd ∧
    vaPd.atom_counts = vaPd.atom_types.map
      (fun t => (((dictGet? vaPd.element_positions t).getD []).length : Int)) ∧
    substituteCore vaPd "Va".data "Si".data none = .ok vaR ∧
    ¬(vaR.atom_counts = vaR.atom_types.map
      (fun t => (((dictGet? vaR.positions t).getD []).length : Int))) :=
  ⟨by decide, by decide, by decide, by decide⟩

/-- C6: on a well-formed structure, the engine fails with `UnknownSiteError`
exactly when the site is not listed; with the site listed and its count 0 it
fails with `EmptySiteError`; with a nonzero count it succeeds. -/
theorem claim_C6 (pd : ParsedData) (sub site : Str) (tgt : Option Coord)
    (hwf : StructureWF pd) :
    (site ∉ pd.atom_types → substituteCore pd sub site tgt = .error .UnknownSiteError) ∧
    (∀ c0, site ∈ pd.atom_types →
      pd.atom_counts.get? (pd.atom_types.findIdx (· == site)) = some c0 →
      (c0 = 0 → substituteCore pd sub site tgt = .error .EmptySiteError) ∧
      (c0 ≠ 0 → ∃ r, substituteCore pd sub site tgt = .ok r)) := by
  obtain ⟨hnd, hpres, hcounts, hcoords⟩ := hwf
  refine ⟨fun hns => substituteCore_unknown pd sub site tgt hns, ?_⟩
  intro c0 hsite hc0
  have hfi := findIdx_eq_of_mem pd.atom_types site hsite
  have hc0' := counts_get_of_map _ _ _ hcounts _ _ hfi.2
  rw [hc0] at hc0'
  have hc0v : c0 = ((((dictGet? pd.element_positions site).getD []).length : Int)) :=
    (Option.some.injEq _ _).mp hc0'
  cases hlook : dictGet? pd.element_positions site with
  | none =>
    have hps := hpres site hsite
    rw [hlook] at hps
    simp at hps
  | some l =>
    rw [hlook] at hc0v
    simp only [Option.getD_some] at hc0v
    constructor
    · intro hz
      have hl0 : l = [] := by
        have hll : l.length = 0 := by omega
        exact List.length_eq_zero.mp hll
      subst hl0
      exact substituteCore_empty pd sub site tgt hsite hlook
    · intro hnz
      have hlne : l ≠ [] := by
        intro hcon
        subst hcon
        simp at hc0v
        exact hnz hc0v
      exact substituteCore_success pd sub site tgt
        (by rw [hcounts, List.length_map]) hpres hsite l hlook hlne

/-- Witness for C6 at the demo structure. -/
theorem claim_C6_witness :
    StructureWF demoPd ∧
    (("Si".data ∉ demoPd.atom_types →
        substituteCore demoPd "K".data "Si".data none = .error .UnknownSiteError) ∧
    (∀ c0, "Si".data ∈ demoPd.atom_types →
      demoPd.atom_counts.get? (demoPd.atom_types.findIdx (· == "Si".data)) = some c0 →
      (c0 = 0 → substituteCore demoPd "K".data "Si".data none = .error .EmptySiteError) ∧
      (c0 ≠ 0 → ∃ r, substituteCore demoPd "K".data "Si".data none = .ok r))) :=
  ⟨by unfold StructureWF; decide,
    claim_C6 demoPd "K".data "Si".data none (by unfold StructureWF; decide)⟩

/-- C10: a coordinate line with fewer than 3 whitespace-separated tokens, all
numeric, is accepted by the coordinate reader without error and yields a
position with that smaller number of components. -/
theorem claim_C10 (lines : List Str) (start n : Nat) (l : Str) (ps : Coord) (rest : List Coord)
    (hline : lines.get? start = some l)
    (hshort : (pySplit l).length < 3)
    (hnum : mapOpt pyFloat? (pySplit l) = some ps)
    (hrest : readPositions lines (start + 1) n = .ok rest) :
    readPositions lines start (n + 1) = .ok (ps :: rest) ∧ ps.length < 3 := by
  have hp : parseCoordLine l = some ps := by
    rw [parseCoordLine, List.take_all_of_le (by omega), hnum]
  have hlen := mapOpt_length pyFloat? (pySplit l) ps hnum
  exact ⟨by simp only [readPositions, hline, hp, hrest], by omega⟩

/-- Witness for C10: a file whose only coordinate line holds a single
numeric token parses into a 1-component position. -/
theorem claim_C10_witness :
    (["0.5".data].get? 0 = some "0.5".data ∧ (pySplit "0.5".data).length < 3 ∧
      mapOpt pyFloat? (pySplit "0.5".data) = some [⟨5, -1⟩] ∧
      readPositions ["0.5".data] 1 0 = .ok []) ∧
    (readPositions ["0.5".data] 0 1 = .ok [[⟨5, -1⟩]] ∧
      ([⟨5, -1⟩] : Coord).length < 3) :=
  ⟨⟨by decide, by decide, by decide, by decide⟩,
    claim_C10 ["0.5".data] 0 0 "0.5".data [⟨5, -1⟩] [] (by decide) (by decide) (by decide)
      (by decide)⟩

/-- C7: with header and counts lines in place, the parser fails with
`FormatError` when no line at index 7 or later is a coordinate-type marker,
when fewer lines than the declared atom total remain after the first marker,
or when a coordinate token fails numeric parsing (any reader failure is
`FormatError`); on success the marker line re-stripped original-case content
becomes the coordinate type. -/
theorem claim_C7 (lines : List Str) (l5 l6 : Str) (counts : List Int)
    (h5 : lines.get? 5 = some l5) (h6 : lines.get? 6 = some l6)
    (hc : mapOpt pyInt? (pySplit l6) = some counts) :
    ((∀ j, 7 ≤ j → j < lines.length → isCoordMarker (lines.getD j []) = false) →
      parse_poscar lines = .error .FormatError) ∧
    (∀ ci, 7 ≤ ci → ci < lines.length → isCoordMarker (lines.getD ci []) = true →
      (∀ j, 7 ≤ j → j < ci → isCoordMarker (lines.getD j []) = false) →
      (lines.length < ci + 1 + counts.sum.toNat →
        parse_poscar lines = .error .FormatError) ∧
      (∀ e, readPositions lines (ci + 1) counts.sum.toNat = .error e →
        e = .FormatError ∧ parse_poscar lines = .error .FormatError) ∧
      (∀ atomic, readPositions lines (ci + 1) counts.sum.toNat = .ok atomic →
        parse_poscar lines = .ok ⟨lines, pySplit l5, counts, pyStrip (lines.getD ci []),
          buildDict ((pySplit l5).zip counts) atomic 0 []⟩)) := by
  constructor
  · intro hnone
    have hm := firstMarkerIdx_eq_none_of lines hnone
    simp only [parse_poscar, h5, h6, hc, hm]
  · intro ci h7 hlt hmark hbefore
    have hm := firstMarkerIdx_eq_some_of lines ci h7 hlt hmark hbefore
    refine ⟨?_, ?_, ?_⟩
    · intro hshort
      cases hr : readPositions lines (ci + 1) counts.sum.toNat with
      | ok ps =>
        rcases Nat.eq_zero_or_pos counts.sum.toNat with hz | hpos
        · omega
        · have hle := readPositions_ok_length_le lines counts.sum.toNat (ci + 1) ps hr hpos
          omega
      | error e =>
        have hef := readPositions_error_elim lines _ _ _ hr
        subst hef
        simp only [parse_poscar, h5, h6, hc, hm, hr]
    · intro e he
      have hef := readPositions_error_elim lines _ _ _ he
      subst hef
      exact ⟨rfl, by simp only [parse_poscar, h5, h6, hc, hm, he]⟩
    · intro atomic hr
      exact parse_poscar_eq_ok lines l5 l6 counts ci atomic h5 h6 hc hm hr

/-- Witness for C7 at the demo structure. -/
theorem claim_C7_witness :
    (demoLines.get? 5 = some "Si O".data ∧ demoLines.get? 6 = some "1 2".data ∧
      mapOpt pyInt? (pySplit "1 2".data) = some [1, 2]) ∧
    (((∀ j, 7 ≤ j → j < demoLines.length → isCoordMarker (demoLines.getD j []) = false) →
        parse_poscar demoLines = .error .FormatError) ∧
      (∀ ci, 7 ≤ ci → ci < demoLines.length →
        isCoordMarker (demoLines.getD ci []) = true →
        (∀ j, 7 ≤ j → j < ci → isCoordMarker (demoLines.getD j []) = false) →
        (demoLines.length < ci + 1 + ([1, 2] : List Int).sum.toNat →
          parse_poscar demoLines = .error .FormatError) ∧
        (∀ e, readPositions demoLines (ci + 1) ([1, 2] : List Int).sum.toNat = .error e →
          e = .FormatError ∧ parse_poscar demoLines = .error .FormatError) ∧
        (∀ atomic, readPositions demoLines (ci + 1) ([1, 2] : List Int).sum.toNat =
            .ok atomic →
          parse_poscar demoLines = .ok ⟨demoLines, pySplit "Si O".data, [1, 2],
            pyStrip (demoLines.getD ci []),
            buildDict ((pySplit "Si O".data).zip [1, 2]) atomic 0 []⟩))) :=
  ⟨⟨by decide, by decide, by decide⟩,
    claim_C7 demoLines "Si O".data "1 2".data [1, 2] (by decide) (by decide) (by decide)⟩

/-- C8: a successful substitution never removes a species: the output element
order extends the input order (at most appending the substitution species),
the site stays listed, substituting away the last atom of the site leaves
its count entry at 0, and the serialized species and counts lines render the
full (unpruned) lists. -/
theorem claim_C8 (pd : ParsedData) (sub site : Str) (tgt : Option Coord) (r : SubResult)
    (hcore : substituteCore pd sub site tgt = .ok r) :
    (r.atom_types = pd.atom_types ∨ r.atom_types = pd.atom_types ++ [sub]) ∧
    site ∈ r.atom_types ∧
    (pd.atom_counts.get? (pd.atom_types.findIdx (· == site)) = some 1 → sub ≠ site →
      r.atom_counts.get? (pd.atom_types.findIdx (· == site)) = some 0) ∧
    (∀ nl fn, serializeOut pd r sub site = .ok (nl, fn) → 5 ≤ pd.lines.length →
      nl.get? 5 = some ("  ".data ++ joinSep "  ".data r.atom_types ++ ['\n']) ∧
      nl.get? 6 = some ("  ".data ++ joinSep "  ".data (r.atom_counts.map intToStr)
        ++ ['\n'])) := by
  obtain ⟨hsite, l, sp, c0, hlook, hfc, hc0, hsp, hbranch⟩ :=
    substituteCore_ok_elim pd sub site tgt r hcore
  have htypes' : r.atom_types = pd.atom_types ∨ r.atom_types = pd.atom_types ++ [sub] := by
    rcases substituteCore_types pd sub site tgt r hcore with h | ⟨_, _, h⟩
    · exact Or.inl h
    · exact Or.inr h
  refine ⟨htypes', ?_, ?_, ?_⟩
  · rcases htypes' with h | h
    · rw [h]
      exact hsite
    · rw [h]
      exact List.mem_append_left _ hsite
  · intro hone hss
    rw [hc0] at hone
    have hc01 : c0 = 1 := (Option.some.injEq _ _).mp hone
    subst hc01
    have hsilt : pd.atom_types.findIdx (· == site) < pd.atom_counts.length :=
      get?_some_lt _ _ _ hc0
    rcases hbranch with ⟨hsub, c1, hc1, hAB⟩ | ⟨hsub, hva, hC⟩ | ⟨hsub, hva, hD⟩
    · have hfis := findIdx_eq_of_mem pd.atom_types site hsite
      have hfib := findIdx_eq_of_mem pd.atom_types sub hsub
      have hne : pd.atom_types.findIdx (· == sub) ≠ pd.atom_types.findIdx (· == site) := by
        intro hcon
        rw [hcon] at hfib
        have hsame := hfis.2.symm.trans hfib.2
        exact hss ((Option.some.injEq _ _).mp hsame).symm
      have hcounts_eq : r.atom_counts =
          (pd.atom_counts.set (pd.atom_types.findIdx (· == site)) (1 - 1)).set
            (pd.atom_types.findIdx (· == sub)) (c1 + 1) := by
        rcases hAB with ⟨_, lsub, hlsub, hA⟩ | ⟨_, hB⟩
        · rw [hA]
        · rw [hB]
      rw [hcounts_eq, get?_set', if_neg hne, get?_set', if_pos rfl, if_pos hsilt]
      norm_num
    · rw [hC]
      dsimp only
      rw [get?_set', if_pos rfl, if_pos hsilt]
      norm_num
    · rw [hD]
      dsimp only
      rw [List.get?_append (by rw [List.length_set]; exact hsilt),
        get?_set', if_pos rfl, if_pos hsilt]
      norm_num
  · intro nl fn hout h5len
    exact serialized_get56 pd r sub site nl fn hout h5len

/-- Witness for C8: substituting `K` for the single `Si` atom of the demo
structure leaves `Si` listed with count 0. -/
theorem claim_C8_witness :
    substituteCore demoPd "K".data "Si".data none = .ok demoKR ∧
    ((demoKR.atom_types = demoPd.atom_types ∨
        demoKR.atom_types = demoPd.atom_types ++ ["K".data]) ∧
      "Si".data ∈ demoKR.atom_types ∧
      (demoPd.atom_counts.get? (demoPd.atom_types.findIdx (· == "Si".data)) = some 1 →
        "K".data ≠ "Si".data →
        demoKR.atom_counts.get? (demoPd.atom_types.findIdx (· == "Si".data)) = some 0) ∧
      (∀ nl fn, serializeOut demoPd demoKR "K".data "Si".data = .ok (nl, fn) →
        5 ≤ demoPd.lines.length →
        nl.get? 5 = some ("  ".data ++ joinSep "  ".data demoKR.atom_types ++ ['\n']) ∧
        nl.get? 6 = some ("  ".data ++ joinSep "  ".data (demoKR.atom_counts.map intToStr)
          ++ ['\n']))) :=
  ⟨by decide, claim_C8 demoPd "K".data "Si".data none demoKR (by decide)⟩

/-- C9: the serialized output is exactly the synthesized descriptor line,
the 4 remaining original header lines, the 2-space-joined species line, the
2-space-joined counts line, the coordinate-type line, and one line per atom
rendered by the 16-digit fixed-point formatter with 2-space indent and
separators; the derived file name is `sub_site_POSCAR`. -/
theorem claim_C9 (pd : ParsedData) (sub site : Str) (tgt : Option Coord) (r : SubResult)
    (hcore : substituteCore pd sub site tgt = .ok r)
    (h3 : ∀ p ∈ flatten_positions r.atom_types r.positions, 3 ≤ p.length)
    (hne : pd.lines ≠ []) :
    substitute pd sub site tgt = .ok (
      (sub ++ '_' :: site ++ " defect ".data
        ++ joinSep [' '] (r.substituted_position.map fmt16) ++ ['\n'])
      :: ((pd.lines.take 5).drop 1
        ++ ["  ".data ++ joinSep "  ".data r.atom_types ++ ['\n'],
            "  ".data ++ joinSep "  ".data (r.atom_counts.map intToStr) ++ ['\n'],
            pd.coord_type ++ ['\n']]
        ++ (flatten_positions r.atom_types r.positions).map fmtLine3),
      sub ++ '_' :: site ++ "_POSCAR".data) :=
  substitute_eq_of pd sub site tgt r _ hcore (serializeOut_shape pd r sub site h3 hne)

/-- Witness for C9: the `K`-for-`Si` run on the demo structure. -/
theorem claim_C9_witness :
    (substituteCore demoPd "K".data "Si".data none = .ok demoKR ∧
      (∀ p ∈ flatten_positions demoKR.atom_types demoKR.positions, 3 ≤ p.length) ∧
      demoPd.lines ≠ []) ∧
    substitute demoPd "K".data "Si".data none = .ok (
      ("K".data ++ '_' :: "Si".data ++ " defect ".data
        ++ joinSep [' '] (demoKR.substituted_position.map fmt16) ++ ['\n'])
      :: ((demoPd.lines.take 5).drop 1
        ++ ["  ".data ++ joinSep "  ".data demoKR.atom_types ++ ['\n'],
            "  ".data ++ joinSep "  ".data (demoKR.atom_counts.map intToStr) ++ ['\n'],
            demoPd.coord_type ++ ['\n']]
        ++ (flatten_positions demoKR.atom_types demoKR.positions).map fmtLine3),
      "K".data ++ '_' :: "Si".data ++ "_POSCAR".data) :=
  ⟨⟨by decide, by decide, by decide⟩,
    claim_C9 demoPd "K".data "Si".data none demoKR (by decide) (by decide) (by decide)⟩

/-- C4 (amended): re-parsing the serialized output of a successful run on a
well-formed parsed structure, with a whitespace-free substitution species and
the vacancy sentinel not itself listed, reproduces the mutated element order
and counts, the coordinate type, and every position with each coordinate
replaced by its 16-digit rounding.  The original claim is refuted by
`claim_C4_counterexample`: a substitution species containing whitespace
re-splits into several symbols. -/
theorem claim_C4 (lines : List Str) (pd : ParsedData) (sub site : Str) (tgt : Option Coord)
    (r : SubResult) (nl : List Str) (fn : Str)
    (hparse : parse_poscar lines = .ok pd)
    (hwf : StructureWF pd)
    (hVa : sub = "Va".data → sub ∉ pd.atom_types)
    (hsubtok : sub ≠ [] ∧ ∀ c ∈ sub, isWs c = false)
    (hcore : substituteCore pd sub site tgt = .ok r)
    (hout : serializeOut pd r sub site = .ok (nl, fn)) :
    parse_poscar nl = .ok ⟨nl, r.atom_types, r.atom_counts, pd.coord_type,
      r.atom_types.map (fun t => (t, ((dictGet? r.positions t).getD []).map
        (fun p => p.map round16)))⟩ := by
  obtain ⟨hnd, hpres, hcounts, hcoords⟩ := hwf
  obtain ⟨l5, l6, counts, ci, atomic, h5, h6, hcM, hm, hr, hpdeq⟩ :=
    parse_poscar_ok_elim lines pd hparse
  obtain ⟨hci7, hcilt, hcimark, _⟩ := firstMarkerIdx_some_spec lines ci hm
  have hlines : pd.lines = lines := by rw [hpdeq]
  have hct : isCoordMarker (pd.coord_type ++ ['\n']) = true := by
    rw [hpdeq]
    dsimp only
    rw [isCoordMarker_strip_nl]
    exact hcimark
  have htypes0 : ∀ t ∈ pd.atom_types, t ≠ [] ∧ ∀ c ∈ t, isWs c = false := by
    rw [hpdeq]
    dsimp only
    exact pySplit_tokens l5
  obtain ⟨hnd', hpres', hcounts'⟩ :=
    substituteCore_preserves pd sub site tgt r hnd hpres hcounts hVa hcore
  have htok' : ∀ t ∈ r.atom_types, t ≠ [] ∧ ∀ c ∈ t, isWs c = false := by
    rcases substituteCore_types pd sub site tgt r hcore with h | ⟨_, _, h⟩
    · rw [h]
      exact htypes0
    · rw [h]
      intro t ht
      rcases List.mem_append.mp ht with ht' | ht'
      · exact htypes0 t ht'
      · rcases List.mem_singleton.mp ht' with rfl
        exact hsubtok
  have hco3 : ∀ p ∈ flatten_positions r.atom_types r.positions, p.length = 3 :=
    flatten_coords_3 _ _ (substituteCore_coords3 pd sub site tgt r hcoords hcore)
  have h3ge : ∀ p ∈ flatten_positions r.atom_types r.positions, 3 ≤ p.length :=
    fun p hp => le_of_eq (hco3 p hp).symm
  have hlenlines : 7 < lines.length := by omega
  have hne : pd.lines ≠ [] := by
    rw [hlines]
    intro hcon
    rw [hcon] at hlenlines
    simp at hlenlines
  have hshape := serializeOut_shape pd r sub site h3ge hne
  rw [hout] at hshape
  have hpair := Except.ok.inj hshape
  have hnl : nl = (sub ++ '_' :: site ++ " defect ".data
      ++ joinSep [' '] (r.substituted_position.map fmt16) ++ ['\n'])
      :: ((pd.lines.take 5).drop 1
        ++ ["  ".data ++ joinSep "  ".data r.atom_types ++ ['\n'],
            "  ".data ++ joinSep "  ".data (r.atom_counts.map intToStr) ++ ['\n'],
            pd.coord_type ++ ['\n']]
        ++ (flatten_positions r.atom_types r.positions).map fmtLine3) :=
    congrArg Prod.fst hpair
  have hhdr : ((pd.lines.take 5).drop 1).length = 4 := by
    rw [List.length_drop, List.length_take, hlines,
      min_eq_left (by omega : 5 ≤ lines.length)]
  have hps := parse_of_serialized
    (sub ++ '_' :: site ++ " defect ".data
      ++ joinSep [' '] (r.substituted_position.map fmt16) ++ ['\n'])
    ((pd.lines.take 5).drop 1) hhdr pd.coord_type hct r.atom_types htok' hnd'
    r.positions r.atom_counts hcounts' hco3
  have hctstrip : pyStrip (pd.coord_type ++ ['\n']) = pd.coord_type := by
    rw [hpdeq]
    dsimp only
    rw [pyStrip_strip_nl]
  rw [hctstrip] at hps
  have hnl2 : nl = (((sub ++ '_' :: site ++ " defect ".data
      ++ joinSep [' '] (r.substituted_position.map fmt16) ++ ['\n'])
      :: ((pd.lines.take 5).drop 1))
      ++ ["  ".data ++ joinSep "  ".data r.atom_types ++ ['\n'],
          "  ".data ++ joinSep "  ".data (r.atom_counts.map intToStr) ++ ['\n'],
          pd.coord_type ++ ['\n']])
      ++ (flatten_positions r.atom_types r.positions).map fmtLine3 := by
    rw [hnl]
    simp [List.cons_append, List.append_assoc]
  rw [hnl2]
  exact hps

/-- Witness for C4: the `K`-for-`Si` run on the demo structure round-trips
through the parser. -/
theorem claim_C4_witness :
    (parse_poscar demoLines = .ok demoPd ∧ StructureWF demoPd ∧
      ("K".data = "Va".data → "K".data ∉ demoPd.atom_types) ∧
      ("K".data ≠ [] ∧ ∀ c ∈ "K".data, isWs c = false) ∧
      substituteCore demoPd "K".data "Si".data none = .ok demoKR ∧
      serializeOut demoPd demoKR "K".data "Si".data = .ok (demoKOut.1, demoKOut.2)) ∧
    parse_poscar demoKOut.1 = .ok ⟨demoKOut.1, demoKR.atom_types, demoKR.atom_counts,
      demoPd.coord_type,
      demoKR.atom_types.map (fun t => (t, ((dictGet? demoKR.positions t).getD []).map
        (fun p => p.map round16)))⟩ :=
  ⟨⟨by decide, by unfold StructureWF; decide, by decide, by decide, by decide, by decide⟩,
    claim_C4 demoLines demoPd "K".data "Si".data none demoKR demoKOut.1 demoKOut.2
      (by decide) (by unfold StructureWF; decide) (by decide) (by decide) (by decide)
      (by decide)⟩

/-- Counterexample to the original C4: a substitution species containing
whitespace makes the serialized species line re-split into extra symbols, so
re-parsing does not reproduce the mutated element order. -/
theorem claim_C4_counterexample :
    parse_poscar demoLines = .ok demoPd ∧
    substituteCore demoPd "X Y".data "Si".data none = .ok xyR ∧
    substitute demoPd "X Y".data "Si".data none = .ok xyOut ∧
    parse_poscar xyOut.1 = .ok xyPd2 ∧
    xyPd2.atom_types ≠ xyR.atom_types :=
  ⟨by decide, by decide, by decide, by decide, by decide⟩
